import Mathlib

/-!
Verification of the incremental crawl-and-reconcile engine of the
Web-Novel-Scraper-Suite repository.

File contents are modelled as `List Char`; each Python source function used by
the claims is translated into an executable Lean definition (Python `str.strip`,
`str.replace`, substring search and the concrete regular expressions are given
direct executable semantics over `List Char`).  The main embedded functions:

* `parse_input_file`, `urls_to_scrape`  — `content_manager._parse_input_file`
  and the pending-selection in `scrape_story_content` (same code in
  `scraper.py`).
* `retryGo` / `processURL` / `run_scrape` — the per-URL retry loop of
  `scrape_story_content` (`content_manager.py` 287-308, `scraper.py` 231-256).
* `parse_output_file` / `build_final_file` — `content_manager._parse_output_file`
  (the regex `---\s*(.*?)\s*---\n\n(.*?)(?=\n---|\Z)` with DOTALL) and
  `_build_final_file`.
* `new_urls` / `removed_urls` — the diff in `link_manager.check_for_updates`
  (lines 96-102) and `grab_links.check_for_updates` (lines 227-233).
* `earmark_dead` — the dead-link marking pass (`link_manager.py` 112-124).
* `restore_revived` — `link_manager.check_for_revived_links` (lines 155-176).
* `assemble_chapter_list` / `new_link_files` / `chunkKey` — the merge-chunks
  operation (`Web-Novel-Scraper-Suite.py` 388-404) and the filename pattern
  `(\d+)-\d+\.txt$`.
-/

namespace Scraper

/-- Characters of a file or line, the model of a Python `str`. -/
abbrev LC := List Char

/-- Python `str.strip()`: drop whitespace from both ends. -/
def pyStrip (s : LC) : LC :=
  ((s.dropWhile Char.isWhitespace).reverse.dropWhile Char.isWhitespace).reverse

/-- One step of Python `str.replace(pat, "")` scanning left to right, with
explicit fuel (the string length suffices). -/
def pyRemoveLoop (pat : LC) : Nat → LC → LC
  | 0, s => s
  | _ + 1, [] => []
  | fuel + 1, c :: cs =>
    if pat ≠ [] ∧ pat.isPrefixOf (c :: cs) then
      pyRemoveLoop pat fuel ((c :: cs).drop pat.length)
    else
      c :: pyRemoveLoop pat fuel cs

/-- Python `s.replace(pat, "")`: remove every non-overlapping occurrence of
`pat`, scanning left to right. -/
def pyRemove (pat s : LC) : LC := pyRemoveLoop pat s.length s

/-- Index of the first occurrence of `pat` as a contiguous substring. -/
def findSub (pat : LC) : LC → Option Nat
  | [] => if pat = [] then some 0 else none
  | c :: cs =>
    if pat.isPrefixOf (c :: cs) then some 0
    else (findSub pat cs).map Nat.succ

/-- Python `pat in s` (substring containment). -/
def occurs (pat s : LC) : Bool := (findSub pat s).isSome

/-! ### The Content Fetch Engine (content_manager.scrape_story_content /
scraper.run_scraper) -/

/-- Result triple of a site adapter's `get_content` / of
`_scrape_chapter_content_internal`: `(title, content, author_notes)` with
Python `None` modelled by `Option.none`. -/
structure FetchRes where
  title : Option LC
  content : Option LC
  notes : Option LC
deriving DecidableEq, Repr

/-- The success test `if title and content is not None` (content_manager.py
line 293): the title must be non-`None` and non-empty (Python truthiness) and
the content must not be `None`. -/
def isSuccessB (r : FetchRes) : Bool :=
  (match r.title with
   | some t => decide (t ≠ [])
   | none => false) && r.content.isSome

/-- The sentinel failure value returned by `site_configs/royalroad.get_content`
on any exception: an error-message title and a `None` body. -/
def royalroadError (url : LC) : FetchRes :=
  { title := some ("Error scraping: ".data ++ url), content := none, notes := none }

/-- The retry loop body of `scrape_story_content`: `fetch i` is the adapter
result of attempt `i` (0-based).  Returns the list of timeouts passed to the
fetcher (milliseconds), the list of `time.sleep` delays performed, and the
`(title, content)` pair on success.  Translates

    delay = 2
    for attempt in range(3):
        timeout = (attempt + 1) * 20000
        title, content, author_notes = _scrape_chapter_content_internal(page, url, timeout)
        if title and content is not None: ... break
        else: time.sleep(delay); delay *= 2
    else: failed_urls.append(url)
-/
def retryGo (fetch : Nat → FetchRes) : Nat → Nat → Nat → List Nat × List Nat × Option (LC × LC)
  | 0, _, _ => ([], [], none)
  | left + 1, i, delay =>
    let t := (i + 1) * 20000
    let r := fetch i
    if isSuccessB r then
      ([t], [], some (r.title.getD [], r.content.getD []))
    else
      let rest := retryGo fetch left (i + 1) (delay * 2)
      (t :: rest.1, delay :: rest.2.1, rest.2.2)

/-- The full per-URL retry policy: `range(3)` attempts, initial delay 2s. -/
def retryURL (fetch : Nat → FetchRes) : List Nat × List Nat × Option (LC × LC) :=
  retryGo fetch 3 0 2

/-- The delimited chapter blocks written by `_append_to_output_file` and
`_build_final_file`: the f-string `"\n--- TITLE ---\n\nBODY\n"`. -/
def chapterBlock (t b : LC) : LC :=
  '\n' :: ("--- ".data ++ t ++ " ---\n\n".data ++ b ++ ['\n'])

/-! ### The ledger line format of `_parse_input_file`

`_parse_input_file` applies `re.match(r"✔\s*(.*?)\s+(https?://\S+)", line)` to
every stripped non-empty line.  The following definitions give this regular
expression (Python backtracking semantics: greedy `\s*` longest first, lazy
`(.*?)` shortest first, greedy `\s+` and `\S+`) a direct executable meaning. -/

/-- One scheme alternative of the group `(https?://\S+)` anchored at the
start of `s`: the literal scheme `pre` followed by `\S+`, the maximal
non-empty run of non-whitespace. -/
def urlTok (s pre : LC) : Option LC :=
  if pre.isPrefixOf s then
    if (s.drop pre.length).takeWhile (fun c => !c.isWhitespace) = [] then none
    else some (pre ++ (s.drop pre.length).takeWhile (fun c => !c.isWhitespace))
  else none

/-- The group `(https?://\S+)` anchored at the start of `s`: `https?` prefers
the `s`-variant. -/
def urlMatch (s : LC) : Option LC :=
  match urlTok s "https://".data with
  | some u => some u
  | none => urlTok s "http://".data

/-- The tail `\s+(https?://\S+)` anchored at the start of `s`: a non-empty
greedy whitespace run followed by the URL group. -/
def wsUrlAt (s : LC) : Option LC :=
  let w := s.takeWhile Char.isWhitespace
  if w = [] then none else urlMatch (s.drop w.length)

/-- Lazy search for the end of the `(.*?)` title group: try the shortest title
first, extending one character at a time until `\s+(https?://\S+)` matches at
the current point.  `acc` holds the reversed title consumed so far. -/
def searchJ : LC → LC → Option (LC × LC)
  | [], acc =>
    match wsUrlAt [] with
    | some u => some (acc.reverse, u)
    | none => none
  | c :: cs, acc =>
    match wsUrlAt (c :: cs) with
    | some u => some (acc.reverse, u)
    | none => searchJ cs (c :: acc)

/-- Backtracking over the greedy `\s*` after the checkmark: try `\s*` lengths
from `a` down to 0 (longest first); for each, the lazy title search starts
after the consumed whitespace. -/
def tryAGo (rest : LC) : Nat → Option (LC × LC)
  | 0 => searchJ rest []
  | a + 1 =>
    match searchJ (rest.drop (a + 1)) [] with
    | some r => some r
    | none => tryAGo rest a

/-- Full match of `re.match(r"✔\s*(.*?)\s+(https?://\S+)", line)` returning
`(group(1), group(2))`.  The `\s*` is greedy (longest first); for a fixed
`\s*` length the title is lazy (shortest first). -/
def matchCheck (line : LC) : Option (LC × LC) :=
  match line with
  | c :: rest =>
    if c = '✔' then tryAGo rest ((rest.takeWhile Char.isWhitespace).length)
    else none
  | [] => none

/-- `content_manager._parse_input_file`: one `(line_index, title_if_scraped,
url)` triple per non-empty line; a line matching the checkmark regex is a
completed entry carrying `group(1).strip()` and `group(2).strip()`, any other
non-empty stripped line is pending with the whole line in the URL slot. -/
def parse_input_file (lines : List LC) : List (Nat × Option LC × LC) :=
  lines.enum.filterMap (fun p =>
    let line := pyStrip p.2
    if line = [] then none
    else
      match matchCheck line with
      | some r => some (p.1, some (pyStrip r.1), pyStrip r.2)
      | none => some (p.1, none, line))

/-- The pending selection `[(index, url) for index, title, url in entries if
not title]` (content_manager.py line 249): entries whose title is `None` or
the empty string. -/
def urls_to_scrape (lines : List LC) : List (Nat × LC) :=
  (parse_input_file lines).filterMap (fun e =>
    match e.2.1 with
    | some t => if t = [] then some (e.1, e.2.2) else none
    | none => some (e.1, e.2.2))

/-! ### State of a scraping session -/

/-- The mutable files touched by the fetch loop: the ledger
(`chapter_list.txt` as a list of raw lines), the archive output file, and the
session failure list. -/
structure ScrapeState where
  lines : List LC
  output : LC
  failed : List LC
deriving DecidableEq, Repr

/-- Processing of one pending URL by the fetch loop: on success the chapter
block is appended to the archive (`_append_to_output_file`) and the ledger
line is rewritten to `f"✔ {title} {url}\n"` (`_update_input_file`); on
exhausted retries the URL joins the failure list and the files are untouched. -/
def processURL (fetch : LC → Nat → FetchRes) (st : ScrapeState) (iu : Nat × LC) :
    ScrapeState :=
  match (retryURL (fetch iu.2)).2.2 with
  | some tc =>
    { lines := st.lines.set iu.1 ("✔ ".data ++ tc.1 ++ ' ' :: iu.2 ++ ['\n'])
      output := st.output ++ chapterBlock tc.1 tc.2
      failed := st.failed }
  | none => { st with failed := st.failed ++ [iu.2] }

/-- The fetch loop over the pending entries, in ledger order. -/
def run_scrape (fetch : LC → Nat → FetchRes) (st : ScrapeState)
    (urls : List (Nat × LC)) : ScrapeState :=
  urls.foldl (processURL fetch) st

/-! ### The archive file parser of `_parse_output_file`

The regex `---\s*(.*?)\s*---\n\n(.*?)(?=\n---|\Z)` with `re.DOTALL` under
`findall` semantics: a match starts at the leftmost `---` that is followed
(after its three dashes) by a later literal `---\n\n`; the title capture is
everything strictly between those two delimiters with surrounding whitespace
absorbed by the `\s*`s (the lazy `(.*?)` makes the closing delimiter the
*first* occurrence of `---\n\n`); the body capture is lazy up to the first
`\n---` lookahead or the end of the string; scanning resumes after the body. -/

/-- Leftmost start of a match: the first position carrying a `---` prefix whose
remainder (after the three dashes) contains a closing `---\n\n`; also returns
the index of that first closing occurrence. -/
def openPos : LC → Option (Nat × Nat)
  | [] => none
  | c :: cs =>
    if "---".data.isPrefixOf (c :: cs) then
      match findSub "---\n\n".data ((c :: cs).drop 3) with
      | some k => some (0, k)
      | none => (openPos cs).map (fun pk => (pk.1 + 1, pk.2))
    else (openPos cs).map (fun pk => (pk.1 + 1, pk.2))

/-- One `findall` scan with explicit fuel (the string length suffices): each
step extracts `(title.strip(), body.strip())` of the leftmost match and
continues after the body. -/
def parseLoop : Nat → LC → List (LC × LC)
  | 0, _ => []
  | fuel + 1, s =>
    match openPos s with
    | none => []
    | some pk =>
      let bTitle := (s.drop (pk.1 + 3)).take pk.2
      let afterC := s.drop (pk.1 + 3 + pk.2 + 5)
      match findSub "\n---".data afterC with
      | some j =>
        (pyStrip bTitle, pyStrip (afterC.take j)) :: parseLoop fuel (afterC.drop j)
      | none => [(pyStrip bTitle, pyStrip afterC)]

/-- `content_manager._parse_output_file` on a file's character content: the
ordered list of `(title, body)` capture pairs, both stripped.  (The Python
code folds this list into a `dict`; `dmem`/`dget` below give that dict's
membership and lookup, later assignments overwriting earlier ones.) -/
def parse_output_file (s : LC) : List (LC × LC) :=
  parseLoop s.length s

/-- Python `title in chapters` for the dict built from the parse list. -/
def dmem (m : List (LC × LC)) (k : LC) : Bool :=
  m.any (fun p => p.1 = k)

/-- Python `chapters[title]` for the dict built from the parse list: the last
assignment wins. -/
def dget (m : List (LC × LC)) (k : LC) : LC :=
  match (m.filter (fun p => p.1 = k)).getLast? with
  | some p => p.2
  | none => []

/-- The ordered completed titles of `_build_final_file`:
`[title for _, title, _ in _parse_input_file(input) if title]` (truthiness
drops both `None` and the empty title). -/
def ordered_titles (lines : List LC) : List LC :=
  (parse_input_file lines).filterMap (fun e =>
    match e.2.1 with
    | some t => if t = [] then none else some t
    | none => none)

/-- `content_manager._build_final_file`: rewrite the archive from scratch,
emitting one block per ledger-ordered completed title present in the parsed
chapter dict. -/
def build_final_file (m : List (LC × LC)) (lines : List LC) : LC :=
  ((ordered_titles lines).map (fun t =>
    if dmem m t then chapterBlock t (dget m t) else [])).flatten

/-! ### The Crawl Reconciler diff (link_manager.check_for_updates 96-102,
grab_links.check_for_updates 227-233) -/

/-- Stable insertion into a key-sorted list: the element goes after every
element with a smaller-or-equal key (Python `sorted` is stable). -/
def insertByKey (k : LC → Nat) (x : LC) : List LC → List LC
  | [] => [x]
  | y :: ys => if k y ≤ k x then y :: insertByKey k x ys else x :: y :: ys

/-- A stable sort by a numeric key, the semantics of Python
`sorted(l, key=k)`. -/
def sortByKey (k : LC → Nat) (l : List LC) : List LC :=
  l.foldr (insertByKey k) []

/-- Python `current_urls.index(u)`: position of the first occurrence. -/
def pyIndex : List LC → LC → Nat
  | [], _ => 0
  | x :: xs, u => if x = u then 0 else pyIndex xs u + 1

/-- `link_manager.check_for_updates` line 101:
`sorted([url for url in current_urls if url not in existing_set],
key=current_urls.index)`. -/
def new_urls (current existing : List LC) : List LC :=
  sortByKey (pyIndex current)
    (current.filter (fun u => !(existing.contains u)))

/-- `grab_links.check_for_updates` line 232:
`sorted(list(current_set - existing_set), key=current_urls.index)`; `diff` is
an arbitrary enumeration of the set difference produced by Python's `set`. -/
def new_urls_gl (current diff : List LC) : List LC :=
  sortByKey (pyIndex current) diff

/-- `removed_urls = list(existing_set - current_set)`: the set difference (its
list order is unspecified by Python, so it is modelled as a `Finset`). -/
def removed_urls (current existing : List LC) : Finset LC :=
  existing.toFinset \ current.toFinset

/-! ### Dead-link marking (link_manager.check_for_updates 112-124) -/

/-- The dead-link marking pass: a line containing any removed URL as a
substring (`any(removed in line for removed in removed_urls)`) and not already
starting with the dead token is rewritten to
`f"[DEAD LINK] {line.strip()}\n"`; every other line is written back as is. -/
def earmark_dead (removed : List LC) (lines : List LC) : List LC :=
  lines.map (fun line =>
    if (removed.any (fun r => occurs r line)) &&
        !("[DEAD LINK]".data.isPrefixOf line) then
      "[DEAD LINK] ".data ++ pyStrip line ++ ['\n']
    else line)

/-! ### Revival check (link_manager.check_for_revived_links 155-176) -/

/-- `line.strip().replace("[DEAD LINK] ", "")`. -/
def stripDead (line : LC) : LC :=
  pyRemove "[DEAD LINK] ".data (pyStrip line)

/-- The dead subset of the ledger:
`[line.strip().replace("[DEAD LINK] ", "") for line in lines if
line.startswith("[DEAD LINK]")]`. -/
def dead_links (lines : List LC) : List LC :=
  (lines.filter (fun l => "[DEAD LINK]".data.isPrefixOf l)).map stripDead

/-- `revived_links = [url for url in dead_links if url in live_urls]`. -/
def revived_links (lines live : List LC) : List LC :=
  (dead_links lines).filter (fun u => live.contains u)

/-- The restore pass of `check_for_revived_links`: each line whose stripped,
marker-free form is a revived URL is rewritten in place to that bare URL;
every other line is kept verbatim. -/
def restore_revived (lines live : List LC) : List LC :=
  lines.map (fun line =>
    if (revived_links lines live).contains (stripDead line) then
      stripDead line ++ ['\n']
    else line)

/-! ### The merge-chunks operation (Web-Novel-Scraper-Suite.assemble_chapter_list
388-404) and the chunk filename pattern -/

/-- Digits of a decimal numeral to a `Nat` (Python `int`). -/
def digitsNat (ds : LC) : Nat :=
  ds.foldl (fun n c => n * 10 + (c.toNat - '0'.toNat)) 0

/-- Match of `\d+-\d+\.txt$` anchored at the start of `s` and reaching the end
of the string, returning `group(1)` as a number: a maximal digit run, a dash,
a maximal digit run, then exactly `.txt`. -/
def chunkHere (s : LC) : Option Nat :=
  let d1 := s.takeWhile Char.isDigit
  if d1 = [] then none
  else
    match s.drop d1.length with
    | '-' :: rest2 =>
      let d2 := rest2.takeWhile Char.isDigit
      if d2 = [] then none
      else if rest2.drop d2.length = ".txt".data then some (digitsNat d1)
      else none
    | _ => none

/-- `int(re.search(r'(\d+)-\d+\.txt$', name).group(1))`: the leftmost match of
the chunk pattern, scanning start positions left to right. -/
def chunkKey : LC → Option Nat
  | [] => none
  | c :: cs =>
    match chunkHere (c :: cs) with
    | some n => some n
    | none => chunkKey cs

/-- The chunk files considered by `assemble_chapter_list` (line 392):
`.txt` names matching `\d+-\d+\.txt$`. -/
def link_file_names (names : List LC) : List LC :=
  names.filter (fun f => ".txt".data.isSuffixOf f && (chunkKey f).isSome)

/-- `new_files = sorted(list(all_link_files - processed_files),
key=lambda x: int(re.search(r'(\d+)-\d+\.txt$', x).group(1)))` (line 393). -/
def new_link_files (names processed : List LC) : List LC :=
  sortByKey (fun f => (chunkKey f).getD 0)
    ((link_file_names names).filter (fun f => !(processed.contains f)))

/-- The persistent state touched by the merge: the master `chapter_list.txt`
and the `_added_links_tracker.json` set of processed chunk filenames. -/
structure MergeState where
  chapterList : LC
  processed : List LC
deriving DecidableEq, Repr

/-- Content of a named chunk file in the links directory. -/
def fileContent (dir : List (LC × LC)) (f : LC) : LC :=
  match (dir.filter (fun p => p.1 = f)).head? with
  | some p => p.2
  | none => []

/-- `assemble_chapter_list` applied to the links directory (the confirmation
path): the newly appeared chunk files, in ascending numeric key order, are
appended verbatim to the master list and recorded in the tracker; with no new
files the state is returned untouched. -/
def assemble_chapter_list (dir : List (LC × LC)) (st : MergeState) : MergeState :=
  let newFiles := new_link_files (dir.map (fun p => p.1)) st.processed
  if newFiles = [] then st
  else
    { chapterList := st.chapterList ++ (newFiles.map (fileContent dir)).flatten
      processed := st.processed ++ newFiles }

/-! ### Well-formed ledgers

The spec's data model (§3, §6) for the Ledger file: one line per chapter URL,
a bare URL is pending, a checkmark token plus title plus URL is completed, a
dead-link token plus URL is dead; URLs are whitespace-free absolute
`http(s)://` URLs and titles are ordinary stripped text. -/

/-- The three states of a `LedgerEntry`. -/
inductive Entry where
  | pending (url : LC)
  | completed (title url : LC)
  | dead (rest : LC)
deriving DecidableEq, Repr

/-- The line content (without the trailing newline) each entry state is
persisted as: written by `assemble_chapter_list` (bare URL),
`_update_input_file` (`f"✔ {title} {url}"`) and the dead-marking pass
(`f"[DEAD LINK] {rest}"`). -/
def renderEntry : Entry → LC
  | .pending u => u
  | .completed t u => "✔ ".data ++ t ++ ' ' :: u
  | .dead r => "[DEAD LINK] ".data ++ r

/-- The ledger file as the list of raw lines `readlines` returns. -/
def renderLines (es : List Entry) : List LC :=
  es.map (fun e => renderEntry e ++ ['\n'])

/-- A string with no whitespace characters. -/
def allNonWs (s : LC) : Bool := s.all (fun c => !c.isWhitespace)

/-- A well-formed chapter URL: the whole string is one `https?://\S+` token. -/
def goodUrlB (u : LC) : Bool := decide (urlMatch u = some u)

/-- No suffix of the title matches `\s+(https?://\S+)`: the lazy title capture
of the checkmark regex then extends to the full title. -/
def noWsUrlB : LC → Bool
  | [] => true
  | c :: cs => !(wsUrlAt (c :: cs)).isSome && noWsUrlB cs

/-- Well-formedness of one ledger entry per the spec's data model: URLs are
non-empty whitespace-free tokens; completed titles are non-empty stripped
single-line text that does not contain the `---` delimiter and does not embed
a whitespace-preceded URL. -/
def EntryWF : Entry → Bool
  | .pending u => !(u = []) && allNonWs u
  | .completed t u =>
      !(t = []) && decide (pyStrip t = t) && !(t.contains '\n') &&
        !(occurs "---".data t) && noWsUrlB t && goodUrlB u && !(u = []) && allNonWs u
  | .dead r => !(r = []) && allNonWs r

/-- Well-formedness of a whole ledger. -/
def LedgerWF (es : List Entry) : Bool := es.all EntryWF

/-- Well-formedness of an archive chapter title per the spec's data model: a
non-empty stripped string not containing the `---` delimiter. -/
def goodTitleB (t : LC) : Bool :=
  !(t = []) && decide (pyStrip t = t) && !(occurs "---".data t)

/-- Well-formedness of an archive chapter body: stripped and not containing a
line starting with the delimiter (`\n---`). -/
def goodBodyB (b : LC) : Bool :=
  decide (pyStrip b = b) && !(occurs "\n---".data b)

/-- The archive text produced by writing the given `(title, body)` chapters in
order, one `chapterBlock` each — the output of `_build_final_file`. -/
def archiveOf (L : List (LC × LC)) : LC :=
  (L.map (fun tb => chapterBlock tb.1 tb.2)).flatten

/-! ## Library lemmas on the embedded operations -/

/-! ### Lemmas on `pyStrip`, `pyRemove`, `occurs` -/

theorem dropWhile_eq_self_of_head {p : Char → Bool} {l : LC}
    (h : ∀ c, l.head? = some c → p c = false) : l.dropWhile p = l := by
  cases l with
  | nil => rfl
  | cons a t =>
    rw [List.dropWhile_cons, if_neg]
    simp [h a rfl]

theorem pyStrip_eq_self {s : LC}
    (h1 : ∀ c, s.head? = some c → c.isWhitespace = false)
    (h2 : ∀ c, s.getLast? = some c → c.isWhitespace = false) : pyStrip s = s := by
  unfold pyStrip
  rw [dropWhile_eq_self_of_head h1,
    dropWhile_eq_self_of_head (fun c hc => h2 c (by rwa [List.head?_reverse] at hc))]
  exact List.reverse_reverse s

theorem allNonWs_mem {s : LC} (h : allNonWs s = true) {c : Char} (hc : c ∈ s) :
    c.isWhitespace = false := by
  have := List.all_eq_true.1 h c hc
  simpa using this

theorem pyStrip_of_allNonWs {s : LC} (h : allNonWs s = true) : pyStrip s = s := by
  refine pyStrip_eq_self (fun c hc => ?_) (fun c hc => ?_)
  · exact allNonWs_mem h (List.mem_of_mem_head? hc)
  · exact allNonWs_mem h (List.mem_of_mem_getLast? hc)

theorem length_pyStrip_le (s : LC) : (pyStrip s).length ≤ s.length := by
  unfold pyStrip
  have h1 := (List.dropWhile_suffix (l := s) Char.isWhitespace).length_le
  have h2 := (List.dropWhile_suffix (l := (s.dropWhile Char.isWhitespace).reverse)
    Char.isWhitespace).length_le
  simp only [List.length_reverse] at *
  omega

theorem strip_fix_head {c : Char} {t : LC} (h : pyStrip (c :: t) = c :: t) :
    c.isWhitespace = false := by
  by_contra hc
  have hws : c.isWhitespace = true := by
    cases hcc : c.isWhitespace
    · exact absurd hcc hc
    · rfl
  have h1 : (c :: t).dropWhile Char.isWhitespace = t.dropWhile Char.isWhitespace := by
    rw [List.dropWhile_cons, if_pos hws]
  have h2 : (pyStrip (c :: t)).length ≤ ((c :: t).dropWhile Char.isWhitespace).length := by
    unfold pyStrip
    have := (List.dropWhile_suffix (l := ((c :: t).dropWhile Char.isWhitespace).reverse)
      Char.isWhitespace).length_le
    simp only [List.length_reverse] at *
    omega
  have h3 := (List.dropWhile_suffix (l := t) Char.isWhitespace).length_le
  rw [h, h1] at h2
  simp at h2
  omega

theorem suffix_getLast? {l₁ l₂ : LC} (h : l₁ <:+ l₂) {d : Char}
    (hd : l₁.getLast? = some d) : l₂.getLast? = some d := by
  rcases h with ⟨pre, rfl⟩
  rw [List.getLast?_append, hd]
  rfl

theorem strip_fix_last {s : LC} {d : Char} (h : pyStrip s = s)
    (hd : s.getLast? = some d) : d.isWhitespace = false := by
  by_contra hc
  have hws : d.isWhitespace = true := by
    cases hcc : d.isWhitespace
    · exact absurd hcc hc
    · rfl
  set r := s.dropWhile Char.isWhitespace with hr
  have hrs : r <:+ s := List.dropWhile_suffix _
  cases hre : r with
  | nil =>
    have : pyStrip s = [] := by
      unfold pyStrip
      rw [← hr, hre]
      rfl
    rw [h] at this
    subst this
    simp at hd
  | cons a t =>
    have hrl : r.getLast? = some d := by
      rcases hrs with ⟨pre, hpre⟩
      rw [← hpre] at hd
      rw [List.getLast?_append] at hd
      cases hg : r.getLast? with
      | none => rw [hre] at hg; simp at hg
      | some x =>
        rw [hg] at hd
        simp at hd
        exact congrArg some hd
    have hrev : r.reverse.head? = some d := by
      rw [List.head?_reverse]
      exact hrl
    cases hrevc : r.reverse with
    | nil => rw [hrevc] at hrev; simp at hrev
    | cons b u =>
      have hbd : b = d := by
        rw [hrevc] at hrev
        simpa using hrev
      have hdrop : r.reverse.dropWhile Char.isWhitespace = u.dropWhile Char.isWhitespace := by
        rw [hrevc, List.dropWhile_cons, if_pos (hbd ▸ hws)]
      have hlen : (pyStrip s).length ≤ u.length := by
        unfold pyStrip
        rw [← hr, hdrop]
        have := (List.dropWhile_suffix (l := u) Char.isWhitespace).length_le
        simp only [List.length_reverse]
        omega
      have hul : u.length + 1 = r.length := by
        have : r.reverse.length = u.length + 1 := by rw [hrevc]; simp
        simpa using this.symm
      have hrlen := hrs.length_le
      rw [h] at hlen
      omega

theorem pyStrip_append_nl {b : LC} (hb : pyStrip b = b) :
    pyStrip (b ++ ['\n']) = b := by
  cases b with
  | nil => decide
  | cons c t =>
    have hc : c.isWhitespace = false := strip_fix_head hb
    unfold pyStrip
    have h1 : ((c :: t) ++ ['\n']).dropWhile Char.isWhitespace = (c :: t) ++ ['\n'] := by
      apply dropWhile_eq_self_of_head
      intro a ha
      simp at ha
      rw [← ha]
      exact hc
    rw [h1]
    have h2 : ((c :: t) ++ ['\n']).reverse = '\n' :: (c :: t).reverse := by
      simp
    rw [h2, List.dropWhile_cons]
    have : ('\n' : Char).isWhitespace = true := by decide
    rw [if_pos this]
    have h3 : (c :: t).reverse.dropWhile Char.isWhitespace = (c :: t).reverse := by
      apply dropWhile_eq_self_of_head
      intro a ha
      rw [List.head?_reverse] at ha
      exact strip_fix_last hb ha
    rw [h3, List.reverse_reverse]

theorem occurs_cons {pat : LC} {c : Char} {cs : LC} :
    occurs pat (c :: cs) = (pat.isPrefixOf (c :: cs) || occurs pat cs) := by
  by_cases h : pat.isPrefixOf (c :: cs)
  · simp [occurs, findSub, h]
  · simp [occurs, findSub, h]

theorem not_occurs_of_ws_pat {pat s : LC} {w : Char} (hw : w ∈ pat)
    (hws : w.isWhitespace = true) (hs : allNonWs s = true) :
    occurs pat s = false := by
  induction s with
  | nil =>
    unfold occurs findSub
    have : pat ≠ [] := fun e => by subst e; cases hw
    simp [this]
  | cons c cs ih =>
    rw [occurs_cons]
    have h1 : pat.isPrefixOf (c :: cs) = false := by
      by_contra h
      have hp : pat <+: c :: cs := List.isPrefixOf_iff_prefix.1 (by
        cases hpp : pat.isPrefixOf (c :: cs)
        · exact absurd hpp h
        · rfl)
      have hmem : w ∈ c :: cs := hp.subset hw
      have := allNonWs_mem hs hmem
      rw [hws] at this
      cases this
    have h2 : allNonWs cs = true := by
      unfold allNonWs at *
      simp only [List.all_cons, Bool.and_eq_true] at hs
      exact hs.2
    rw [h1, ih h2]
    rfl

theorem pyRemoveLoop_fuel {pat : LC} :
    ∀ (fuel₁ fuel₂ : Nat) (s : LC), s.length ≤ fuel₁ → s.length ≤ fuel₂ →
      pyRemoveLoop pat fuel₁ s = pyRemoveLoop pat fuel₂ s := by
  intro fuel₁
  induction fuel₁ with
  | zero =>
    intro fuel₂ s h1 h2
    have : s = [] := List.length_eq_zero.1 (by omega)
    subst this
    cases fuel₂ <;> rfl
  | succ f ih =>
    intro fuel₂ s h1 h2
    cases s with
    | nil => cases fuel₂ <;> rfl
    | cons c cs =>
      cases fuel₂ with
      | zero => simp at h2
      | succ f2 =>
        unfold pyRemoveLoop
        by_cases hp : pat ≠ [] ∧ pat.isPrefixOf (c :: cs)
        · rw [if_pos hp, if_pos hp]
          have hlen : ((c :: cs).drop pat.length).length ≤ f ∧
              ((c :: cs).drop pat.length).length ≤ f2 := by
            rw [List.length_drop]
            have : pat.length ≥ 1 := by
              cases pat with
              | nil => exact absurd rfl hp.1
              | cons a b => simp
            simp only [List.length_cons] at *
            omega
          exact ih f2 _ hlen.1 hlen.2
        · rw [if_neg hp, if_neg hp]
          have : cs.length ≤ f ∧ cs.length ≤ f2 := by
            simp only [List.length_cons] at *
            omega
          rw [ih f2 cs this.1 this.2]

theorem pyRemove_cons_no_match {pat s : LC} {c : Char}
    (h : pat.isPrefixOf (c :: s) = false) :
    pyRemove pat (c :: s) = c :: pyRemove pat s := by
  show pyRemoveLoop pat (c :: s).length (c :: s) = c :: pyRemoveLoop pat s.length s
  simp only [List.length_cons]
  rw [pyRemoveLoop]
  rw [if_neg]
  rintro ⟨-, hp⟩
  rw [h] at hp
  cases hp

theorem pyRemove_nil_pat_or (pat : LC) : pyRemove pat [] = [] := by
  unfold pyRemove pyRemoveLoop
  rfl

theorem pyRemove_not_occurs {pat s : LC} (h : occurs pat s = false) :
    pyRemove pat s = s := by
  induction s with
  | nil => exact pyRemove_nil_pat_or pat
  | cons c cs ih =>
    rw [occurs_cons] at h
    simp only [Bool.or_eq_false_iff] at h
    rw [pyRemove_cons_no_match h.1, ih h.2]

theorem pyRemove_append_self {pat r : LC} (hne : pat ≠ []) :
    pyRemove pat (pat ++ r) = pyRemove pat r := by
  cases pat with
  | nil => exact absurd rfl hne
  | cons p ps =>
    show pyRemoveLoop (p :: ps) ((p :: ps) ++ r).length ((p :: ps) ++ r)
        = pyRemoveLoop (p :: ps) r.length r
    have hcons : (p :: ps) ++ r = p :: (ps ++ r) := rfl
    rw [hcons]
    have hlen : (p :: (ps ++ r)).length = (ps ++ r).length + 1 := rfl
    rw [hlen, pyRemoveLoop, if_pos]
    · have hdrop : (p :: (ps ++ r)).drop (p :: ps).length = r := by
        rw [← hcons, List.drop_left]
      rw [hdrop]
      apply pyRemoveLoop_fuel
      · simp only [List.length_append]
        omega
      · omega
    · refine ⟨hne, ?_⟩
      rw [← hcons]
      exact List.isPrefixOf_iff_prefix.2 (List.prefix_append (p :: ps) r)

theorem isPrefixOf_cons_false {pt s : LC} {a c : Char} (h : a ≠ c) :
    (a :: pt).isPrefixOf (c :: s) = false := by
  simp [List.isPrefixOf, h]


theorem mem_insertByKey {k : LC → Nat} {x a : LC} {l : List LC} :
    a ∈ insertByKey k x l ↔ a = x ∨ a ∈ l := by
  induction l with
  | nil => simp [insertByKey]
  | cons y ys ih =>
    by_cases h : k y ≤ k x
    · simp only [insertByKey, if_pos h, List.mem_cons, ih]
      tauto
    · simp only [insertByKey, if_neg h, List.mem_cons]

theorem insertByKey_perm (k : LC → Nat) (x : LC) (l : List LC) :
    (insertByKey k x l).Perm (x :: l) := by
  induction l with
  | nil => simp [insertByKey]
  | cons y ys ih =>
    by_cases h : k y ≤ k x
    · simp only [insertByKey, if_pos h]
      exact (ih.cons y).trans (List.Perm.swap x y ys)
    · simp [insertByKey, h]

theorem sortByKey_perm (k : LC → Nat) (l : List LC) :
    (sortByKey k l).Perm l := by
  induction l with
  | nil => simp [sortByKey]
  | cons x xs ih =>
    exact (insertByKey_perm k x (sortByKey k xs)).trans (ih.cons x)

theorem mem_sortByKey {k : LC → Nat} {a : LC} {l : List LC} :
    a ∈ sortByKey k l ↔ a ∈ l :=
  (sortByKey_perm k l).mem_iff

theorem pairwise_insertByKey {k : LC → Nat} {x : LC} {l : List LC}
    (h : l.Pairwise (fun a b => k a ≤ k b)) :
    (insertByKey k x l).Pairwise (fun a b => k a ≤ k b) := by
  induction l with
  | nil => simp [insertByKey]
  | cons y ys ih =>
    rcases List.pairwise_cons.1 h with ⟨hy, hys⟩
    by_cases hxy : k y ≤ k x
    · simp only [insertByKey, if_pos hxy]
      refine List.pairwise_cons.2 ⟨?_, ih hys⟩
      intro a ha
      rcases mem_insertByKey.1 ha with rfl | ha
      · exact hxy
      · exact hy a ha
    · simp only [insertByKey, if_neg hxy]
      refine List.pairwise_cons.2 ⟨?_, h⟩
      intro a ha
      rcases List.mem_cons.1 ha with rfl | ha
      · omega
      · exact le_trans (by omega) (hy a ha)

theorem sortByKey_pairwise (k : LC → Nat) (l : List LC) :
    (sortByKey k l).Pairwise (fun a b => k a ≤ k b) := by
  induction l with
  | nil => simp [sortByKey]
  | cons x xs ih => exact pairwise_insertByKey ih

theorem sortByKey_eq_self {k : LC → Nat} {l : List LC}
    (h : l.Pairwise (fun a b => k a < k b)) : sortByKey k l = l := by
  induction l with
  | nil => rfl
  | cons x xs ih =>
    rcases List.pairwise_cons.1 h with ⟨hx, hxs⟩
    have hs : sortByKey k (x :: xs) = insertByKey k x (sortByKey k xs) := rfl
    rw [hs, ih hxs]
    cases xs with
    | nil => rfl
    | cons y ys =>
      have : ¬ k y ≤ k x := by
        have := hx y (by simp)
        omega
      simp [insertByKey, this]

/-- Two lists that are strictly sorted by the same key and have the same
members are equal. -/
theorem eq_of_strict_sorted {k : LC → Nat} {l₁ l₂ : List LC}
    (h₁ : l₁.Pairwise (fun a b => k a < k b))
    (h₂ : l₂.Pairwise (fun a b => k a < k b))
    (hm : ∀ a, a ∈ l₁ ↔ a ∈ l₂) : l₁ = l₂ := by
  have n₁ : l₁.Nodup := h₁.imp (fun {a b} h => by
    intro e; subst e; omega)
  have n₂ : l₂.Nodup := h₂.imp (fun {a b} h => by
    intro e; subst e; omega)
  have hp : l₁.Perm l₂ := (List.perm_ext_iff_of_nodup n₁ n₂).2 hm
  exact @List.eq_of_perm_of_sorted _ (fun a b => k a < k b)
    ⟨fun a b hab hba => by omega⟩ _ _ hp h₁ h₂

/-! ### Lemmas on rendered ledger lines -/

/-- The dead-link test `line.startswith("[DEAD LINK]")`. -/
def isDeadE : Entry → Bool
  | .dead _ => true
  | _ => false

theorem wf_pending {u : LC} (h : EntryWF (.pending u) = true) :
    u ≠ [] ∧ allNonWs u = true := by
  simp only [EntryWF, Bool.and_eq_true, Bool.not_eq_true'] at h
  exact ⟨by simpa using h.1, h.2⟩

theorem wf_dead {r : LC} (h : EntryWF (.dead r) = true) :
    r ≠ [] ∧ allNonWs r = true := by
  simp only [EntryWF, Bool.and_eq_true, Bool.not_eq_true'] at h
  exact ⟨by simpa using h.1, h.2⟩

theorem wf_completed {t u : LC} (h : EntryWF (.completed t u) = true) :
    t ≠ [] ∧ pyStrip t = t ∧ t.contains '\n' = false ∧
      occurs "---".data t = false ∧ noWsUrlB t = true ∧ goodUrlB u = true ∧
      u ≠ [] ∧ allNonWs u = true := by
  simp only [EntryWF, Bool.and_eq_true, Bool.not_eq_true', decide_eq_true_eq] at h
  obtain ⟨⟨⟨⟨⟨⟨⟨h1, h2⟩, h3⟩, h4⟩, h5⟩, h6⟩, h7⟩, h8⟩ := h
  exact ⟨by simpa using h1, h2, h3, h4, h5, h6, by simpa using h7, h8⟩

theorem render_completed (t u : LC) :
    renderEntry (.completed t u) = '✔' :: ' ' :: (t ++ ' ' :: u) := rfl

theorem render_dead (r : LC) :
    renderEntry (.dead r) = '[' :: ("DEAD LINK] ".data ++ r) := rfl

theorem dead_tag_split : "[DEAD LINK] ".data = "[DEAD LINK]".data ++ [' '] := by decide

/-- Appending on the left does not change the last element. -/
theorem getLast?_append_right {a b : LC} (hb : b ≠ []) :
    (a ++ b).getLast? = b.getLast? := by
  rw [List.getLast?_append]
  cases hg : b.getLast? with
  | none =>
    cases b with
    | nil => exact absurd rfl hb
    | cons x y => simp at hg
  | some z => rfl

/-- Stripping a well-formed rendered entry changes nothing. -/
theorem pyStrip_render {e : Entry} (h : EntryWF e = true) :
    pyStrip (renderEntry e) = renderEntry e := by
  cases e with
  | pending u => exact pyStrip_of_allNonWs (wf_pending h).2
  | completed t u =>
    obtain ⟨-, -, -, -, -, -, hu, hnw⟩ := wf_completed h
    refine pyStrip_eq_self (fun c hc => ?_) (fun c hc => ?_)
    · rw [render_completed] at hc
      simp at hc
      rw [← hc]
      decide
    · have h4 : renderEntry (.completed t u) = (('✔' :: ' ' :: t) ++ [' ']) ++ u := by
        rw [render_completed]
        simp
      rw [h4, getLast?_append_right hu] at hc
      exact allNonWs_mem hnw (List.mem_of_mem_getLast? hc)
  | dead r =>
    obtain ⟨hr, hnw⟩ := wf_dead h
    refine pyStrip_eq_self (fun c hc => ?_) (fun c hc => ?_)
    · rw [render_dead] at hc
      simp at hc
      rw [← hc]
      decide
    · have h4 : renderEntry (.dead r) = "[DEAD LINK] ".data ++ r := rfl
      rw [h4, getLast?_append_right hr] at hc
      exact allNonWs_mem hnw (List.mem_of_mem_getLast? hc)

/-- The dead-link test on a rendered line: only dead entries start with the
dead token. -/
theorem dead_tag_test {e : Entry} (h : EntryWF e = true) :
    "[DEAD LINK]".data.isPrefixOf (renderEntry e ++ ['\n']) = isDeadE e := by
  cases e with
  | pending u =>
    obtain ⟨-, hnw⟩ := wf_pending h
    show _ = false
    by_contra hp
    have hp2 : "[DEAD LINK]".data <+: (u ++ ['\n']) := by
      apply List.isPrefixOf_iff_prefix.1
      cases hq : "[DEAD LINK]".data.isPrefixOf (u ++ ['\n'])
      · exact absurd hq hp
      · rfl
    have hmem : ' ' ∈ u ++ ['\n'] := hp2.subset (by decide)
    rcases List.mem_append.1 hmem with hm | hm
    · have := allNonWs_mem hnw hm
      simp at this
    · simp at hm
  | completed t u =>
    show _ = false
    rw [render_completed]
    have : ('✔' :: ' ' :: (t ++ ' ' :: u)) ++ ['\n']
        = '✔' :: (' ' :: (t ++ ' ' :: u) ++ ['\n']) := rfl
    rw [this]
    have hsplit : "[DEAD LINK]".data = '[' :: "DEAD LINK]".data := by decide
    rw [hsplit]
    exact isPrefixOf_cons_false (by decide)
  | dead r =>
    show _ = true
    have h1 : renderEntry (.dead r) ++ ['\n']
        = "[DEAD LINK]".data ++ (' ' :: (r ++ ['\n'])) := by
      show ("[DEAD LINK] ".data ++ r) ++ ['\n'] = _
      rw [dead_tag_split]
      simp
    rw [h1]
    exact List.isPrefixOf_iff_prefix.2 (List.prefix_append _ _)

/-- `stripDead` of a rendered pending line is the bare URL. -/
theorem stripDead_pending {u : LC} (hnw : allNonWs u = true) :
    stripDead (u ++ ['\n']) = u := by
  unfold stripDead
  rw [pyStrip_append_nl (pyStrip_of_allNonWs hnw)]
  exact pyRemove_not_occurs
    (not_occurs_of_ws_pat (w := ' ') (by decide) (by decide) hnw)

/-- `stripDead` of a rendered dead line recovers the marked text. -/
theorem stripDead_dead {r : LC} (hwf : EntryWF (.dead r) = true) :
    stripDead (renderEntry (.dead r) ++ ['\n']) = r := by
  obtain ⟨hr, hnw⟩ := wf_dead hwf
  unfold stripDead
  rw [pyStrip_append_nl (pyStrip_render hwf)]
  show pyRemove "[DEAD LINK] ".data ("[DEAD LINK] ".data ++ r) = r
  rw [pyRemove_append_self (by decide)]
  exact pyRemove_not_occurs
    (not_occurs_of_ws_pat (w := ' ') (by decide) (by decide) hnw)

/-- `stripDead` of a rendered completed line keeps the leading checkmark and
space, so the result still contains whitespace. -/
theorem stripDead_completed_ws {t u : LC} (hwf : EntryWF (.completed t u) = true) :
    ' ' ∈ stripDead (renderEntry (.completed t u) ++ ['\n']) := by
  unfold stripDead
  rw [pyStrip_append_nl (pyStrip_render hwf)]
  rw [render_completed]
  have hsplit : "[DEAD LINK] ".data = '[' :: ("DEAD LINK] ".data) := by decide
  have h1 : pyRemove "[DEAD LINK] ".data ('✔' :: ' ' :: (t ++ ' ' :: u))
      = '✔' :: pyRemove "[DEAD LINK] ".data (' ' :: (t ++ ' ' :: u)) := by
    apply pyRemove_cons_no_match
    rw [hsplit]
    exact isPrefixOf_cons_false (by decide)
  have h2 : pyRemove "[DEAD LINK] ".data (' ' :: (t ++ ' ' :: u))
      = ' ' :: pyRemove "[DEAD LINK] ".data (t ++ ' ' :: u) := by
    apply pyRemove_cons_no_match
    rw [hsplit]
    exact isPrefixOf_cons_false (by decide)
  rw [h1, h2]
  simp

/-- The rest strings of the dead entries, in ledger order. -/
def deadRests (es : List Entry) : List LC :=
  es.filterMap (fun e => match e with | .dead r => some r | _ => none)

/-- One step of the dead-link scan. -/
theorem dead_links_cons (l : LC) (ls : List LC) :
    dead_links (l :: ls)
      = if "[DEAD LINK]".data.isPrefixOf l = true then stripDead l :: dead_links ls
        else dead_links ls := by
  unfold dead_links
  rw [List.filter_cons]
  by_cases hp : "[DEAD LINK]".data.isPrefixOf l = true
  · simp [hp]
  · simp [hp]

theorem renderLines_cons (e : Entry) (es : List Entry) :
    renderLines (e :: es) = (renderEntry e ++ ['
']) :: renderLines es := rfl

theorem ledgerWF_cons {e : Entry} {es : List Entry}
    (h : LedgerWF (e :: es) = true) : EntryWF e = true ∧ LedgerWF es = true := by
  unfold LedgerWF at *
  simp only [List.all_cons, Bool.and_eq_true] at h
  exact h

/-- On a well-formed ledger the dead-link scan recovers exactly the dead
entries' texts. -/
theorem dead_links_render {es : List Entry} (h : LedgerWF es = true) :
    dead_links (renderLines es) = deadRests es := by
  induction es with
  | nil => rfl
  | cons e es ih =>
    obtain ⟨hwf, hrest⟩ := ledgerWF_cons h
    rw [renderLines_cons, dead_links_cons, dead_tag_test hwf]
    cases e with
    | pending u =>
      rw [if_neg (by simp [isDeadE])]
      rw [ih hrest]
      rfl
    | completed t u =>
      rw [if_neg (by simp [isDeadE])]
      rw [ih hrest]
      rfl
    | dead r =>
      rw [if_pos (by simp [isDeadE])]
      rw [stripDead_dead hwf, ih hrest]
      rfl

/-- Every revived URL of a well-formed ledger is a whitespace-free dead-entry
text. -/
theorem revived_nonws {es : List Entry} {live : List LC} {y : LC}
    (h : LedgerWF es = true)
    (hy : y ∈ revived_links (renderLines es) live) : allNonWs y = true := by
  unfold revived_links at hy
  rw [dead_links_render h] at hy
  have hy2 : y ∈ deadRests es := (List.mem_filter.1 hy).1
  unfold deadRests at hy2
  rcases List.mem_filterMap.1 hy2 with ⟨e, he, hme⟩
  cases e with
  | pending u => simp at hme
  | completed t u => simp at hme
  | dead r =>
    have hr : r = y := by simpa using hme
    subst hr
    exact (wf_dead (List.all_eq_true.1 h _ he)).2

/-! ### Lemmas on the checkmark-regex matcher -/

theorem bfalse {b : Bool} (h : ¬b = true) : b = false := by
  cases b
  · rfl
  · exact absurd rfl h

theorem head?_dropWhile_not {p : Char → Bool} {l : LC} {c : Char}
    (h : (l.dropWhile p).head? = some c) : p c = false := by
  induction l with
  | nil => simp [List.dropWhile] at h
  | cons a t ih =>
    rw [List.dropWhile_cons] at h
    by_cases hp : p a = true
    · rw [if_pos hp] at h
      exact ih h
    · rw [if_neg hp] at h
      simp at h
      rw [← h]
      exact bfalse hp

theorem isPrefixOf_length_le {p s : LC} (h : p.isPrefixOf s = true) :
    p.length ≤ s.length :=
  (List.isPrefixOf_iff_prefix.1 h).length_le

theorem nonws_prefix_concat {p x y : LC} (hp : ∀ c ∈ p, c.isWhitespace = false) :
    p.isPrefixOf (x ++ ' ' :: y) = p.isPrefixOf x := by
  by_cases hx : p.isPrefixOf x = true
  · rw [hx]
    exact List.isPrefixOf_iff_prefix.2
      ((List.isPrefixOf_iff_prefix.1 hx).trans (List.prefix_append x _))
  · rw [bfalse hx]
    by_contra hc
    have hct : p.isPrefixOf (x ++ ' ' :: y) = true := by
      cases hq : p.isPrefixOf (x ++ ' ' :: y)
      · rw [hq] at hc
        exact absurd rfl hc
      · rfl
    have hcp : p <+: x ++ ' ' :: y := List.isPrefixOf_iff_prefix.1 hct
    by_cases hl : p.length ≤ x.length
    · have hpx : p <+: x :=
        List.prefix_of_prefix_length_le hcp (List.prefix_append x _) hl
      exact hx (List.isPrefixOf_iff_prefix.2 hpx)
    · have hxp : x <+: p :=
        List.prefix_of_prefix_length_le (List.prefix_append x (' ' :: y)) hcp (by omega)
      rcases hxp with ⟨q, rfl⟩
      rcases hcp with ⟨k, hk⟩
      rw [List.append_assoc] at hk
      have hqk : q ++ k = ' ' :: y := by
        have := List.append_cancel_left hk
        exact this
      cases q with
      | nil =>
        simp at hl
      | cons q0 qt =>
        have hq0 : q0 = ' ' := by
          have := congrArg List.head? hqk
          simpa using this
        have hmem : ' ' ∈ x ++ q0 :: qt := by
          rw [hq0] at *
          exact List.mem_append.2 (Or.inr (List.mem_cons_self _ _))
        have := hp ' ' hmem
        simp at this

theorem takeWhile_nonws_concat (x y : LC) :
    (x ++ ' ' :: y).takeWhile (fun c => !c.isWhitespace)
      = x.takeWhile (fun c => !c.isWhitespace) := by
  rw [List.takeWhile_append]
  by_cases h : (x.takeWhile (fun c => !c.isWhitespace)).length = x.length
  · rw [if_pos h]
    have hx : x.takeWhile (fun c => !c.isWhitespace) = x :=
      (List.takeWhile_prefix _).eq_of_length h
    rw [List.takeWhile_cons, if_neg (by decide), List.append_nil]
    exact hx.symm
  · rw [if_neg h]

theorem takeWhile_ws_ne {x : LC} {d : Char} (hd : d ∈ x)
    (hnw : d.isWhitespace = false) :
    (x.takeWhile Char.isWhitespace).length ≠ x.length := by
  intro h
  have hx : x.takeWhile Char.isWhitespace = x :=
    (List.takeWhile_prefix _).eq_of_length h
  have := List.mem_takeWhile_imp (p := Char.isWhitespace) (x := d) (by rw [hx]; exact hd)
  rw [hnw] at this
  cases this

theorem drop_append_le {n : Nat} {x y : LC} (h : n ≤ x.length) :
    (x ++ y).drop n = x.drop n ++ y := by
  rw [List.drop_append_eq_append_drop]
  have h0 : n - x.length = 0 := by omega
  rw [h0, List.drop_zero]

theorem urlTok_concat {x y pre : LC} (hp : ∀ c ∈ pre, c.isWhitespace = false) :
    urlTok (x ++ ' ' :: y) pre = urlTok x pre := by
  unfold urlTok
  rw [nonws_prefix_concat hp]
  by_cases hx : pre.isPrefixOf x = true
  · rw [hx]
    simp only [if_pos]
    rw [drop_append_le (isPrefixOf_length_le hx), takeWhile_nonws_concat]
  · rw [bfalse hx]
    simp

theorem urlMatch_concat (x y : LC) : urlMatch (x ++ ' ' :: y) = urlMatch x := by
  unfold urlMatch
  rw [urlTok_concat (by decide), urlTok_concat (by decide)]

theorem wsUrlAt_concat {x : LC} (y : LC) {d : Char} (hd : d ∈ x)
    (hnw : d.isWhitespace = false) :
    wsUrlAt (x ++ ' ' :: y) = wsUrlAt x := by
  unfold wsUrlAt
  have hne := takeWhile_ws_ne hd hnw
  rw [List.takeWhile_append, if_neg hne]
  by_cases hw : x.takeWhile Char.isWhitespace = []
  · rw [hw]
    simp
  · simp only [if_neg hw]
    rw [drop_append_le ((List.takeWhile_prefix _).length_le)]
    exact urlMatch_concat _ _

theorem wsUrlAt_space_url {u : LC} (hnw : allNonWs u = true)
    (hg : goodUrlB u = true) : wsUrlAt (' ' :: u) = some u := by
  unfold wsUrlAt
  have h2 : u.takeWhile Char.isWhitespace = [] := by
    cases u with
    | nil => rfl
    | cons a t =>
      rw [List.takeWhile_cons, if_neg]
      rw [allNonWs_mem hnw (List.mem_cons_self a t)]
      simp
  have h1 : (' ' :: u).takeWhile Char.isWhitespace = [' '] := by
    rw [List.takeWhile_cons, if_pos (by decide), h2]
  rw [h1]
  simp only [List.length_cons, List.length_nil]
  rw [if_neg (by simp), List.drop_one]
  show urlMatch u = some u
  exact of_decide_eq_true hg

theorem wsUrlAt_eq (s : LC) :
    wsUrlAt s
      = if s.takeWhile Char.isWhitespace = [] then none
        else urlMatch (s.drop (s.takeWhile Char.isWhitespace).length) := rfl

theorem wsUrlAt_head_nonws {c : Char} {cs : LC} (h : c.isWhitespace = false) :
    wsUrlAt (c :: cs) = none := by
  have ht : (c :: cs).takeWhile Char.isWhitespace = [] := by
    rw [List.takeWhile_cons, if_neg (by simp [h])]
  rw [wsUrlAt_eq, ht, if_pos rfl]

theorem searchJ_url {s acc : LC} {u : LC} (h : wsUrlAt s = some u) :
    searchJ s acc = some (acc.reverse, u) := by
  cases s with
  | nil =>
    rw [show searchJ [] acc = (match wsUrlAt ([] : LC) with
      | some u => some (acc.reverse, u)
      | none => none) from rfl, h]
  | cons c cs =>
    rw [show searchJ (c :: cs) acc = (match wsUrlAt (c :: cs) with
      | some u => some (acc.reverse, u)
      | none => searchJ cs (c :: acc)) from rfl, h]

theorem searchJ_step {c : Char} {cs : LC} (acc : LC)
    (h : wsUrlAt (c :: cs) = none) :
    searchJ (c :: cs) acc = searchJ cs (c :: acc) := by
  rw [show searchJ (c :: cs) acc = (match wsUrlAt (c :: cs) with
    | some u => some (acc.reverse, u)
    | none => searchJ cs (c :: acc)) from rfl, h]

theorem searchJ_nil (acc : LC) : searchJ [] acc = none := rfl

theorem searchJ_nonws_none {s : LC} (h : allNonWs s = true) :
    ∀ acc, searchJ s acc = none := by
  induction s with
  | nil => intro acc; exact searchJ_nil acc
  | cons c cs ih =>
    intro acc
    have hcnw : c.isWhitespace = false := allNonWs_mem h (List.mem_cons_self c cs)
    rw [searchJ_step acc (wsUrlAt_head_nonws hcnw)]
    refine ih ?_ _
    unfold allNonWs at *
    simp only [List.all_cons, Bool.and_eq_true] at h
    exact h.2

theorem searchJ_title {u : LC} (hnwu : allNonWs u = true) (hgu : goodUrlB u = true) :
    ∀ (t acc : LC), noWsUrlB t = true →
      (∀ x, t.getLast? = some x → x.isWhitespace = false) →
      searchJ (t ++ ' ' :: u) acc = some (acc.reverse ++ t, u) := by
  intro t
  induction t with
  | nil =>
    intro acc h1 h2
    rw [show ([] : LC) ++ ' ' :: u = ' ' :: u from rfl,
      searchJ_url (wsUrlAt_space_url hnwu hgu)]
    simp
  | cons c cs ih =>
    intro acc h1 h2
    have hparts : wsUrlAt (c :: cs) = none ∧ noWsUrlB cs = true := by
      unfold noWsUrlB at h1
      simp only [Bool.and_eq_true] at h1
      refine ⟨?_, h1.2⟩
      cases hw : wsUrlAt (c :: cs)
      · rfl
      · rw [hw] at h1
        simp at h1
    have hlast : ∃ z, (c :: cs).getLast? = some z := by
      cases hg : (c :: cs).getLast? with
      | none => simp at hg
      | some z => exact ⟨z, rfl⟩
    obtain ⟨z, hz⟩ := hlast
    have hznw : z.isWhitespace = false := h2 z hz
    have hzm : z ∈ c :: cs := List.mem_of_mem_getLast? hz
    have hconcat : wsUrlAt ((c :: cs) ++ ' ' :: u) = none := by
      rw [wsUrlAt_concat u hzm hznw]
      exact hparts.1
    rw [show (c :: cs) ++ ' ' :: u = c :: (cs ++ ' ' :: u) from rfl] at hconcat ⊢
    rw [searchJ_step acc hconcat]
    have hcs : ∀ x, cs.getLast? = some x → x.isWhitespace = false := by
      intro x hx
      have hcsne : cs ≠ [] := by
        intro e
        rw [e] at hx
        simp at hx
      have : (c :: cs).getLast? = some x := by
        have h4 : c :: cs = [c] ++ cs := rfl
        rw [h4, getLast?_append_right hcsne]
        exact hx
      exact h2 x this
    rw [ih (c :: acc) hparts.2 hcs]
    simp

theorem matchCheck_not_check {c : Char} {rest : LC} (h : c ≠ '✔') :
    matchCheck (c :: rest) = none := by
  show (if c = '✔' then tryAGo rest ((rest.takeWhile Char.isWhitespace).length)
    else none) = none
  rw [if_neg h]

theorem matchCheck_nonws {line : LC} (h : allNonWs line = true) :
    matchCheck line = none := by
  cases line with
  | nil => rfl
  | cons c rest =>
    by_cases hc : c = '✔'
    · subst hc
      show (if '✔' = '✔' then tryAGo rest ((rest.takeWhile Char.isWhitespace).length)
        else none) = none
      rw [if_pos rfl]
      have hrnw : allNonWs rest = true := by
        unfold allNonWs at *
        simp only [List.all_cons, Bool.and_eq_true] at h
        exact h.2
      have htw : rest.takeWhile Char.isWhitespace = [] := by
        cases rest with
        | nil => rfl
        | cons a t =>
          rw [List.takeWhile_cons, if_neg]
          rw [allNonWs_mem hrnw (List.mem_cons_self a t)]
          simp
      rw [htw]
      show searchJ rest [] = none
      exact searchJ_nonws_none hrnw []
    · exact matchCheck_not_check hc

/-- The checkmark regex on a well-formed completed line recovers the title and
URL. -/
theorem matchCheck_completed {t u : LC} (hwf : EntryWF (.completed t u) = true) :
    matchCheck (renderEntry (.completed t u)) = some (t, u) := by
  obtain ⟨ht, hstrip, hnl, hocc, hnwt, hgood, hune, hunw⟩ := wf_completed hwf
  rw [render_completed]
  show (if '✔' = '✔' then
      tryAGo (' ' :: (t ++ ' ' :: u))
        (((' ' :: (t ++ ' ' :: u)).takeWhile Char.isWhitespace).length)
    else none) = some (t, u)
  rw [if_pos rfl]
  obtain ⟨th, tt, rfl⟩ : ∃ th tt, t = th :: tt := by
    cases t with
    | nil => exact absurd rfl ht
    | cons th tt => exact ⟨th, tt, rfl⟩
  have hthnw : th.isWhitespace = false := strip_fix_head hstrip
  have htw : ((th :: tt) ++ ' ' :: u).takeWhile Char.isWhitespace = [] := by
    rw [show (th :: tt) ++ ' ' :: u = th :: (tt ++ ' ' :: u) from rfl,
      List.takeWhile_cons, if_neg (by simp [hthnw])]
  have hmaxA : ((' ' :: ((th :: tt) ++ ' ' :: u)).takeWhile Char.isWhitespace).length
      = 1 := by
    rw [List.takeWhile_cons, if_pos (by decide), htw]
    rfl
  rw [hmaxA]
  show (match searchJ ((' ' :: ((th :: tt) ++ ' ' :: u)).drop 1) [] with
    | some r => some r
    | none => tryAGo (' ' :: ((th :: tt) ++ ' ' :: u)) 0) = some (th :: tt, u)
  rw [show (' ' :: ((th :: tt) ++ ' ' :: u)).drop 1 = (th :: tt) ++ ' ' :: u from rfl]
  rw [searchJ_title hunw hgood (th :: tt) []
    hnwt (fun x hx => strip_fix_last hstrip hx)]
  simp

/-- `filterMap` over an enumeration with an index-free function forgets the
indices. -/
theorem enumFrom_filterMap_snd {α β : Type} (k : α → Option β) :
    ∀ (n : Nat) (l : List α),
      (List.enumFrom n l).filterMap (fun p => k p.2) = l.filterMap k := by
  intro n l
  induction l generalizing n with
  | nil => rfl
  | cons a t ih =>
    rw [show List.enumFrom n (a :: t) = (n, a) :: List.enumFrom (n + 1) t from rfl]
    rw [List.filterMap_cons, List.filterMap_cons]
    cases k a with
    | none => exact ih (n + 1)
    | some b => rw [ih (n + 1)]

/-- The title a ledger line contributes to `ordered_titles`. -/
def parseTitle (line : LC) : Option LC :=
  if pyStrip line = [] then none
  else
    match matchCheck (pyStrip line) with
    | some r => if pyStrip r.1 = [] then none else some (pyStrip r.1)
    | none => none

theorem ordered_titles_eq (lines : List LC) :
    ordered_titles lines = lines.filterMap parseTitle := by
  unfold ordered_titles parse_input_file
  rw [List.filterMap_filterMap]
  rw [List.filterMap_congr (g := fun p : Nat × LC => parseTitle p.2) ?_]
  · exact enumFrom_filterMap_snd parseTitle 0 lines
  · intro p hp
    unfold parseTitle
    by_cases h : pyStrip p.2 = []
    · simp [h]
    · simp only [if_neg h]
      cases matchCheck (pyStrip p.2) with
      | none => rfl
      | some r => rfl

/-- The completed titles of a ledger, in ledger order. -/
def completedTitles (es : List Entry) : List LC :=
  es.filterMap (fun e => match e with | .completed t _ => some t | _ => none)

/-- On a well-formed ledger `_build_final_file`'s ordered titles are exactly
the completed entries' titles, in ledger order; pending and dead positions
contribute nothing. -/
theorem ordered_titles_render {es : List Entry} (h : LedgerWF es = true) :
    ordered_titles (renderLines es) = completedTitles es := by
  rw [ordered_titles_eq]
  unfold renderLines completedTitles
  rw [List.filterMap_map]
  apply List.filterMap_congr
  intro e he
  have hwf : EntryWF e = true := List.all_eq_true.1 h e he
  show parseTitle (renderEntry e ++ ['\n']) = _
  unfold parseTitle
  rw [pyStrip_append_nl (pyStrip_render hwf)]
  cases e with
  | pending u =>
    obtain ⟨hu, hnw⟩ := wf_pending hwf
    rw [show renderEntry (Entry.pending u) = u from rfl, if_neg (by simpa using hu),
      matchCheck_nonws hnw]
  | completed t u =>
    obtain ⟨ht, hstrip, -, -, -, -, -, -⟩ := wf_completed hwf
    rw [if_neg (by rw [render_completed]; simp), matchCheck_completed hwf]
    show (if pyStrip t = [] then none else some (pyStrip t)) = some t
    rw [hstrip, if_neg ht]
  | dead r =>
    rw [if_neg (by rw [render_dead]; simp)]
    rw [render_dead, matchCheck_not_check (by decide)]

/-! ### Lemmas on the archive-file regex parser -/

theorem findSub_none_iff {pat : LC} (hp : pat ≠ []) :
    ∀ {s : LC}, findSub pat s = none ↔ ∀ q, pat.isPrefixOf (s.drop q) = false := by
  intro s
  induction s with
  | nil =>
    constructor
    · intro _ q
      rw [List.drop_nil]
      cases pat with
      | nil => exact absurd rfl hp
      | cons a b => rfl
    · intro _
      unfold findSub
      rw [if_neg hp]
  | cons c cs ih =>
    constructor
    · intro h q
      unfold findSub at h
      by_cases hpre : pat.isPrefixOf (c :: cs) = true
      · rw [if_pos hpre] at h
        cases h
      · rw [if_neg hpre] at h
        cases q with
        | zero => exact bfalse hpre
        | succ q =>
          have hn : findSub pat cs = none := by
            cases hf : findSub pat cs
            · rfl
            · rw [hf] at h
              cases h
          exact (ih.1 hn) q
    · intro h
      unfold findSub
      have h0 : pat.isPrefixOf (c :: cs) = false := h 0
      rw [if_neg (by rw [h0]; simp)]
      rw [ih.2 (fun q => h (q + 1))]
      rfl

theorem findSub_some_iff {pat : LC} (hp : pat ≠ []) :
    ∀ {s : LC} {k : Nat}, findSub pat s = some k ↔
      (pat.isPrefixOf (s.drop k) = true ∧ ∀ j < k, pat.isPrefixOf (s.drop j) = false) := by
  intro s
  induction s with
  | nil =>
    intro k
    constructor
    · intro h
      unfold findSub at h
      rw [if_neg hp] at h
      cases h
    · rintro ⟨h1, -⟩
      rw [List.drop_nil] at h1
      cases pat with
      | nil => exact absurd rfl hp
      | cons a b => cases h1
  | cons c cs ih =>
    intro k
    constructor
    · intro h
      unfold findSub at h
      by_cases hpre : pat.isPrefixOf (c :: cs) = true
      · rw [if_pos hpre] at h
        cases h
        exact ⟨hpre, by omega⟩
      · rw [if_neg hpre] at h
        cases hf : findSub pat cs with
        | none => rw [hf] at h; cases h
        | some k2 =>
          rw [hf] at h
          have hk : k = k2 + 1 := by
            simpa using h.symm
          subst hk
          obtain ⟨h1, h2⟩ := ih.1 hf
          refine ⟨h1, ?_⟩
          intro j hj
          cases j with
          | zero => exact bfalse hpre
          | succ j => exact h2 j (by omega)
    · rintro ⟨h1, h2⟩
      unfold findSub
      cases k with
      | zero =>
        have h1b : pat.isPrefixOf (c :: cs) = true := h1
        rw [if_pos h1b]
      | succ k =>
        have h0 : pat.isPrefixOf (c :: cs) = false := h2 0 (by omega)
        rw [if_neg (by rw [h0]; simp)]
        rw [ih.2 ⟨h1, fun j hj => h2 (j + 1) (by omega)⟩]
        rfl

theorem occurs_false_iff {pat : LC} (hp : pat ≠ []) {s : LC} :
    occurs pat s = false ↔ ∀ q, pat.isPrefixOf (s.drop q) = false := by
  unfold occurs
  rw [← findSub_none_iff hp]
  cases findSub pat s <;> simp

theorem occurs_true_of_prefix_drop {pat s : LC} (hp : pat ≠ []) {q : Nat}
    (h : pat.isPrefixOf (s.drop q) = true) : occurs pat s = true := by
  cases ho : occurs pat s
  · rw [(occurs_false_iff hp).1 ho q] at h
    cases h
  · rfl

theorem prefix_shorten {p x y : LC} (h : p.isPrefixOf (x ++ y) = true)
    (hl : p.length ≤ x.length) : p.isPrefixOf x = true :=
  List.isPrefixOf_iff_prefix.2
    (List.prefix_of_prefix_length_le (List.isPrefixOf_iff_prefix.1 h)
      (List.prefix_append x y) hl)

theorem prefix_extend {p x y : LC} (h : p.isPrefixOf x = true) :
    p.isPrefixOf (x ++ y) = true :=
  List.isPrefixOf_iff_prefix.2
    ((List.isPrefixOf_iff_prefix.1 h).trans (List.prefix_append x y))

theorem isPrefixOf_false_of_long {p s : LC} (h : s.length < p.length) :
    p.isPrefixOf s = false := by
  cases hq : p.isPrefixOf s
  · rfl
  · have := isPrefixOf_length_le hq
    omega

theorem occurs_mono {pat t s : LC} (hp : pat ≠ []) (hinf : t <:+: s)
    (h : occurs pat t = true) : occurs pat s = true := by
  rcases hinf with ⟨pre, post, rfl⟩
  have hex : ∃ q, pat.isPrefixOf (t.drop q) = true := by
    by_contra hc
    push_neg at hc
    have : occurs pat t = false := (occurs_false_iff hp).2 (fun q => bfalse (hc q))
    rw [this] at h
    cases h
  rcases hex with ⟨q, hq⟩
  apply occurs_true_of_prefix_drop hp (q := pre.length + q)
  have hdrop : (pre ++ t ++ post).drop (pre.length + q) = t.drop q ++ post := by
    rw [List.append_assoc, List.drop_append_eq_append_drop]
    have h1 : pre.length + q - pre.length = q := by omega
    have h2 : pre.drop (pre.length + q) = [] := by
      apply List.drop_eq_nil_of_le
      omega
    rw [h1, h2, List.nil_append, List.drop_append_eq_append_drop]
    by_cases hql : q ≤ t.length
    · have h3 : q - t.length = 0 := by omega
      rw [h3, List.drop_zero]
    · have h3 : t.drop q = [] := List.drop_eq_nil_of_le (by omega)
      rw [h3]
      cases hq2 : pat.isPrefixOf ([] : LC)
      · rw [h3] at hq
        rw [hq2] at hq
        cases hq
      · cases pat with
        | nil => exact absurd rfl hp
        | cons a b => cases hq2
  rw [hdrop]
  exact prefix_extend hq

theorem pyStrip_subseg (s : LC) : pyStrip s <:+: s := by
  have h1 : s.dropWhile Char.isWhitespace <:+ s := List.dropWhile_suffix _
  have h2 : (s.dropWhile Char.isWhitespace).reverse.dropWhile Char.isWhitespace
      <:+ (s.dropWhile Char.isWhitespace).reverse := List.dropWhile_suffix _
  have h3 : pyStrip s <+: s.dropWhile Char.isWhitespace := by
    unfold pyStrip
    rw [← List.reverse_suffix]
    simpa using h2
  exact (h3.isInfix).trans h1.isInfix

theorem pyStrip_idem (s : LC) : pyStrip (pyStrip s) = pyStrip s := by
  apply pyStrip_eq_self
  · intro c hc
    unfold pyStrip at hc
    rw [List.head?_reverse] at hc
    have hz : (s.dropWhile Char.isWhitespace).reverse.dropWhile Char.isWhitespace ≠ [] := by
      intro e
      rw [e] at hc
      cases hc
    have hlast : ((s.dropWhile Char.isWhitespace).reverse.dropWhile
        Char.isWhitespace).getLast? = some c := hc
    have hsuf := List.dropWhile_suffix
      (l := (s.dropWhile Char.isWhitespace).reverse) Char.isWhitespace
    have hl2 := suffix_getLast? hsuf hlast
    rw [List.getLast?_reverse] at hl2
    exact head?_dropWhile_not hl2
  · intro c hc
    unfold pyStrip at hc
    rw [List.getLast?_reverse] at hc
    exact head?_dropWhile_not hc

/-- The closing `---\n\n` after a well-formed title is found exactly at the
end of the title (position `|t| + 2` counting the surrounding spaces). -/
theorem findSub_close {t : LC} (R : LC) (hocc : occurs "---".data t = false) :
    findSub "---\n\n".data (' ' :: (t ++ ' ' :: ("---\n\n".data ++ R)))
      = some (t.length + 2) := by
  have hpne : "---\n\n".data ≠ [] := by decide
  rw [findSub_some_iff hpne]
  constructor
  · have hS : ' ' :: (t ++ ' ' :: ("---\n\n".data ++ R))
        = ((' ' :: t ++ [' ']) ++ ("---\n\n".data ++ R)) := by simp
    rw [hS, show t.length + 2 = (' ' :: t ++ [' ']).length from by simp,
      List.drop_left]
    exact prefix_extend (List.isPrefixOf_iff_prefix.2 (List.prefix_refl _))
  · intro j hj
    cases j with
    | zero =>
      show "---\n\n".data.isPrefixOf (' ' :: (t ++ ' ' :: ("---\n\n".data ++ R)))
          = false
      rw [show "---\n\n".data = '-' :: "--\n\n".data from rfl]
      exact isPrefixOf_cons_false (by decide)
    | succ i =>
      have hi : i ≤ t.length := by omega
      rw [show (' ' :: (t ++ ' ' :: ("---\n\n".data ++ R))).drop (i + 1)
          = (t ++ ' ' :: ("---\n\n".data ++ R)).drop i from rfl,
        drop_append_le hi]
      cases hx : t.drop i with
      | nil => simp [List.isPrefixOf]
      | cons a x1 =>
        cases x1 with
        | nil =>
          show "---\n\n".data.isPrefixOf (a :: ' ' :: ("---\n\n".data ++ R)) = false
          simp [List.isPrefixOf]
        | cons b2 x2 =>
          cases x2 with
          | nil =>
            show "---\n\n".data.isPrefixOf (a :: b2 :: ' ' :: ("---\n\n".data ++ R))
                = false
            simp [List.isPrefixOf]
          | cons c2 x3 =>
            by_contra hc
            have hct : "---\n\n".data.isPrefixOf
                ((a :: b2 :: c2 :: x3) ++ ' ' :: ("---\n\n".data ++ R)) = true := by
              cases hq : "---\n\n".data.isPrefixOf
                ((a :: b2 :: c2 :: x3) ++ ' ' :: ("---\n\n".data ++ R))
              · rw [hq] at hc
                exact absurd rfl hc
              · rfl
            have h3 : "---".data.isPrefixOf
                ((a :: b2 :: c2 :: x3) ++ ' ' :: ("---\n\n".data ++ R)) = true := by
              apply List.isPrefixOf_iff_prefix.2
              exact (List.isPrefixOf_iff_prefix.1 (by decide :
                "---".data.isPrefixOf "---\n\n".data = true)).trans
                (List.isPrefixOf_iff_prefix.1 hct)
            have h4 : "---".data.isPrefixOf (a :: b2 :: c2 :: x3) = true :=
              prefix_shorten h3 (by simp)
            have h5 : occurs "---".data t = true := by
              apply occurs_true_of_prefix_drop (by decide) (q := i)
              rw [hx]
              exact h4
            rw [h5] at hocc
            cases hocc

/-- In the final block the body lookahead `\n---` never fires: the body runs
to the end of the string. -/
theorem findSub_body_last {b : LC} (hocc : occurs "\n---".data b = false) :
    findSub "\n---".data (b ++ ['\n']) = none := by
  have hpne : "\n---".data ≠ [] := by decide
  rw [findSub_none_iff hpne]
  intro q
  by_cases hq : q ≤ b.length
  · rw [drop_append_le hq]
    cases hx : b.drop q with
    | nil => decide
    | cons a x1 =>
      cases x1 with
      | nil =>
        show "\n---".data.isPrefixOf (a :: ['\n']) = false
        apply isPrefixOf_false_of_long
        simp
      | cons b2 x2 =>
        cases x2 with
        | nil =>
          show "\n---".data.isPrefixOf (a :: b2 :: ['\n']) = false
          apply isPrefixOf_false_of_long
          simp
        | cons c2 x3 =>
          cases x3 with
          | nil =>
            by_contra hc
            have hct : "\n---".data.isPrefixOf ([a, b2, c2] ++ ['\n']) = true := by
              cases hq2 : "\n---".data.isPrefixOf ([a, b2, c2] ++ ['\n'])
              · rw [hq2] at hc
                exact absurd rfl hc
              · rfl
            have heq : "\n---".data = [a, b2, c2] ++ ['\n'] :=
              (List.isPrefixOf_iff_prefix.1 hct).eq_of_length (by simp)
            have hlast := congrArg List.getLast? heq
            rw [getLast?_append_right (by simp)] at hlast
            simp at hlast
          | cons d2 x4 =>
            by_contra hc
            have hct : "\n---".data.isPrefixOf
                ((a :: b2 :: c2 :: d2 :: x4) ++ ['\n']) = true := by
              cases hq2 : "\n---".data.isPrefixOf ((a :: b2 :: c2 :: d2 :: x4) ++ ['\n'])
              · rw [hq2] at hc
                exact absurd rfl hc
              · rfl
            have h4 : "\n---".data.isPrefixOf (a :: b2 :: c2 :: d2 :: x4) = true :=
              prefix_shorten hct (by simp)
            have h5 : occurs "\n---".data b = true := by
              apply occurs_true_of_prefix_drop (by decide) (q := q)
              rw [hx]
              exact h4
            rw [h5] at hocc
            cases hocc
  · apply isPrefixOf_false_of_long
    rw [List.length_drop]
    simp only [List.length_append, List.length_cons, List.length_nil]
    have : ("\n---".data).length = 4 := by decide
    omega

/-- With a following block the body lookahead `\n---` first fires exactly at
the newline written after the body. -/
theorem findSub_body_next {b : LC} (w : LC) (hocc : occurs "\n---".data b = false) :
    findSub "\n---".data (b ++ '\n' :: '\n' :: '-' :: '-' :: '-' :: w)
      = some (b.length + 1) := by
  have hpne : "\n---".data ≠ [] := by decide
  rw [findSub_some_iff hpne]
  constructor
  · rw [show b ++ '\n' :: '\n' :: '-' :: '-' :: '-' :: w
        = (b ++ ['\n']) ++ ('\n' :: '-' :: '-' :: '-' :: w) from by simp,
      show b.length + 1 = (b ++ ['\n']).length from by simp,
      List.drop_left]
    simp [List.isPrefixOf]
  · intro j hj
    have hjb : j ≤ b.length := by omega
    rw [drop_append_le hjb]
    cases hx : b.drop j with
    | nil => simp [List.isPrefixOf]
    | cons a x1 =>
      cases x1 with
      | nil =>
        show "\n---".data.isPrefixOf (a :: '\n' :: '\n' :: '-' :: '-' :: '-' :: w)
            = false
        simp [List.isPrefixOf]
      | cons b2 x2 =>
        cases x2 with
        | nil =>
          show "\n---".data.isPrefixOf
              (a :: b2 :: '\n' :: '\n' :: '-' :: '-' :: '-' :: w) = false
          simp [List.isPrefixOf]
        | cons c2 x3 =>
          cases x3 with
          | nil =>
            show "\n---".data.isPrefixOf
                (a :: b2 :: c2 :: '\n' :: '\n' :: '-' :: '-' :: '-' :: w) = false
            simp [List.isPrefixOf]
          | cons d2 x4 =>
            by_contra hc
            have hct : "\n---".data.isPrefixOf
                ((a :: b2 :: c2 :: d2 :: x4) ++ '\n' :: '\n' :: '-' :: '-' :: '-' :: w)
                = true := by
              cases hq2 : "\n---".data.isPrefixOf
                ((a :: b2 :: c2 :: d2 :: x4) ++ '\n' :: '\n' :: '-' :: '-' :: '-' :: w)
              · rw [hq2] at hc
                exact absurd rfl hc
              · rfl
            have h4 : "\n---".data.isPrefixOf (a :: b2 :: c2 :: d2 :: x4) = true :=
              prefix_shorten hct (by simp)
            have h5 : occurs "\n---".data b = true := by
              apply occurs_true_of_prefix_drop (by decide) (q := j)
              rw [hx]
              exact h4
            rw [h5] at hocc
            cases hocc

/-- Normal form of a chapter block followed by arbitrary text. -/
theorem chapterBlock_append (t b z : LC) :
    chapterBlock t b ++ z
      = '\n' :: '-' :: '-' :: '-' :: ' ' ::
          (t ++ ' ' :: ("---\n\n".data ++ (b ++ '\n' :: z))) := by
  rw [show ("---\n\n".data : LC) = '-' :: '-' :: '-' :: '\n' :: '\n' :: [] from rfl]
  simp [chapterBlock]

/-- `openPos` on an archive starting with a well-formed block finds exactly
that block: the opening `---` at position 1 and a title span of `|t| + 2`. -/
theorem openPos_block {t : LC} (b z : LC) (hocc : occurs "---".data t = false) :
    openPos (chapterBlock t b ++ z) = some (1, t.length + 2) := by
  rw [chapterBlock_append]
  have h1 : "---".data.isPrefixOf
      ('\n' :: '-' :: '-' :: '-' :: ' ' ::
        (t ++ ' ' :: ("---\n\n".data ++ (b ++ '\n' :: z)))) = false := by
    rw [show ("---".data : LC) = '-' :: "--".data from rfl]
    exact isPrefixOf_cons_false (by decide)
  have h2 : "---".data.isPrefixOf
      ('-' :: '-' :: '-' :: ' ' ::
        (t ++ ' ' :: ("---\n\n".data ++ (b ++ '\n' :: z)))) = true := by
    simp [List.isPrefixOf]
  have h3 := findSub_close (t := t) (b ++ '\n' :: z) hocc
  rw [openPos, h1]
  simp only [Bool.false_eq_true, if_false]
  rw [openPos, h2]
  simp only [if_true]
  rw [show ('-' :: '-' :: '-' :: ' ' ::
      (t ++ ' ' :: ("---\n\n".data ++ (b ++ '\n' :: z)))).drop 3
      = ' ' :: (t ++ ' ' :: ("---\n\n".data ++ (b ++ '\n' :: z))) from rfl, h3]
  rfl

/-- `parseLoop` on the empty string yields nothing at every fuel. -/
theorem parseLoop_nil (f : Nat) : parseLoop f [] = [] := by
  cases f with
  | zero => rfl
  | succ g => rfl

/-- Fuel irrelevance for `parseLoop`: any fuel at least the string length
gives the same parse. -/
theorem parseLoop_fuel :
    ∀ (f1 : Nat) {s : LC} {f2 : Nat}, s.length ≤ f1 → s.length ≤ f2 →
      parseLoop f1 s = parseLoop f2 s := by
  intro f1
  induction f1 with
  | zero =>
    intro s f2 h1 _
    have hs : s = [] := List.length_eq_zero.1 (Nat.le_zero.1 h1)
    rw [hs, parseLoop_nil, parseLoop_nil]
  | succ g ih =>
    intro s f2 h1 h2
    cases f2 with
    | zero =>
      have hs : s = [] := List.length_eq_zero.1 (Nat.le_zero.1 h2)
      rw [hs, parseLoop_nil, parseLoop_nil]
    | succ g2 =>
      rw [parseLoop, parseLoop]
      cases ho : openPos s with
      | none => rfl
      | some pk =>
        simp only []
        cases hf : findSub "\n---".data (s.drop (pk.1 + 3 + pk.2 + 5)) with
        | none => rfl
        | some j =>
          simp only []
          have hlen : ((s.drop (pk.1 + 3 + pk.2 + 5)).drop j).length ≤ s.length - 1 := by
            rw [List.length_drop, List.length_drop]
            omega
          have hga : ((s.drop (pk.1 + 3 + pk.2 + 5)).drop j).length ≤ g := by omega
          have hgb : ((s.drop (pk.1 + 3 + pk.2 + 5)).drop j).length ≤ g2 := by omega
          rw [ih hga hgb]

/-- Stripping the single-space padding around an already-stripped string. -/
theorem pyStrip_pad {t : LC} (h : pyStrip t = t) :
    pyStrip (' ' :: (t ++ [' '])) = t := by
  cases t with
  | nil => decide
  | cons c t' =>
    have hc : c.isWhitespace = false := strip_fix_head h
    unfold pyStrip
    rw [show List.dropWhile Char.isWhitespace (' ' :: ((c :: t') ++ [' ']))
        = List.dropWhile Char.isWhitespace ((c :: t') ++ [' ']) from by
      rw [List.dropWhile_cons]
      simp,
      List.cons_append, List.dropWhile_cons]
    rw [if_neg (by simp [hc])]
    rw [show (c :: (t' ++ [' '])).reverse = ' ' :: ((c :: t').reverse) from by simp]
    rw [List.dropWhile_cons]
    rw [if_pos (by decide)]
    rw [dropWhile_eq_self_of_head (fun d hd => strip_fix_last h
      (by rwa [List.head?_reverse] at hd))]
    exact List.reverse_reverse _

theorem goodTitle_spec {t : LC} (h : goodTitleB t = true) :
    ¬(t = []) ∧ pyStrip t = t ∧ occurs "---".data t = false := by
  simp only [goodTitleB, Bool.and_eq_true, Bool.not_eq_true', decide_eq_true_eq,
    decide_eq_false_iff_not] at h
  exact ⟨h.1.1, h.1.2, h.2⟩

theorem goodBody_spec {b : LC} (h : goodBodyB b = true) :
    pyStrip b = b ∧ occurs "\n---".data b = false := by
  simp only [goodBodyB, Bool.and_eq_true, Bool.not_eq_true', decide_eq_true_eq] at h
  exact ⟨h.1, h.2⟩

theorem chapterBlock_length (t b : LC) :
    (chapterBlock t b).length = t.length + b.length + 12 := by
  have h := chapterBlock_append t b []
  rw [List.append_nil] at h
  rw [h, show ("---\n\n".data : LC) = '-' :: '-' :: '-' :: '\n' :: '\n' :: [] from rfl]
  simp
  omega

/-- The main round trip: parsing an archive written from well-formed chapter
pairs recovers exactly those pairs, in order. -/
theorem parseLoop_archive :
    ∀ (L : List (LC × LC)),
      (∀ tb ∈ L, goodTitleB tb.1 = true ∧ goodBodyB tb.2 = true) →
      ∀ (f : Nat), (archiveOf L).length ≤ f → parseLoop f (archiveOf L) = L := by
  intro L
  induction L with
  | nil =>
    intro _ f _
    rw [show archiveOf [] = [] from rfl, parseLoop_nil]
  | cons tb L' ih =>
    intro hwf f hf
    obtain ⟨t, b⟩ := tb
    have htb := hwf (t, b) (List.mem_cons_self _ _)
    obtain ⟨hts, htocc⟩ := (goodTitle_spec htb.1).2
    obtain ⟨hbs, hbocc⟩ := goodBody_spec htb.2
    have harc : archiveOf ((t, b) :: L') = chapterBlock t b ++ archiveOf L' := by
      rw [archiveOf, List.map_cons, List.flatten_cons]
      rfl
    have hcb := chapterBlock_length t b
    cases f with
    | zero =>
      rw [harc, List.length_append] at hf
      omega
    | succ g =>
      rw [harc, parseLoop, openPos_block b (archiveOf L') htocc]
      simp only []
      have hdrop4 : (chapterBlock t b ++ archiveOf L').drop (1 + 3)
          = ' ' :: (t ++ ' ' :: ("---\n\n".data ++ (b ++ '\n' :: archiveOf L'))) := by
        rw [chapterBlock_append]
        rfl
      have htake : (' ' :: (t ++ ' ' :: ("---\n\n".data
          ++ (b ++ '\n' :: archiveOf L')))).take (t.length + 2)
          = ' ' :: (t ++ [' ']) := by
        rw [show (' ' :: (t ++ ' ' :: ("---\n\n".data ++ (b ++ '\n' :: archiveOf L'))) : LC)
            = (' ' :: (t ++ [' '])) ++ ("---\n\n".data ++ (b ++ '\n' :: archiveOf L'))
            from by simp]
        rw [show t.length + 2 = ((' ' :: (t ++ [' '])) : LC).length from by
          simp only [List.length_cons, List.length_append, List.length_nil]]
        rw [List.take_left]
      have hdropC : (chapterBlock t b ++ archiveOf L').drop (1 + 3 + (t.length + 2) + 5)
          = b ++ '\n' :: archiveOf L' := by
        rw [chapterBlock_append]
        rw [show ('\n' :: '-' :: '-' :: '-' :: ' ' ::
            (t ++ ' ' :: ("---\n\n".data ++ (b ++ '\n' :: archiveOf L'))))
            = ('\n' :: '-' :: '-' :: '-' :: ' ' :: (t ++ ' ' :: "---\n\n".data))
              ++ (b ++ '\n' :: archiveOf L') from by simp]
        rw [show (1 + 3 + (t.length + 2) + 5)
            = (('\n' :: '-' :: '-' :: '-' :: ' ' :: (t ++ ' ' :: "---\n\n".data)) : LC).length
            from by
          rw [show ("---\n\n".data : LC) = '-' :: '-' :: '-' :: '\n' :: '\n' :: [] from rfl]
          simp only [List.length_cons, List.length_append, List.length_nil]
          omega]
        rw [List.drop_left]
      rw [hdrop4, htake, hdropC, pyStrip_pad hts]
      cases L' with
      | nil =>
        rw [show archiveOf [] = [] from rfl, findSub_body_last hbocc]
        simp only []
        rw [show b ++ '\n' :: ([] : LC) = b ++ ['\n'] from rfl, pyStrip_append_nl hbs]
      | cons tb2 L'' =>
        obtain ⟨t2, b2⟩ := tb2
        have harc2 : archiveOf ((t2, b2) :: L'') = chapterBlock t2 b2 ++ archiveOf L'' := by
          rw [archiveOf, List.map_cons, List.flatten_cons]
          rfl
        have hz : b ++ '\n' :: archiveOf ((t2, b2) :: L'')
            = b ++ '\n' :: '\n' :: '-' :: '-' :: '-' ::
                (' ' :: (t2 ++ ' ' :: ("---\n\n".data ++ (b2 ++ '\n' :: archiveOf L'')))) := by
          rw [harc2, chapterBlock_append]
        rw [hz, findSub_body_next _ hbocc]
        simp only []
        have htk : (b ++ '\n' :: '\n' :: '-' :: '-' :: '-' ::
            (' ' :: (t2 ++ ' ' :: ("---\n\n".data ++ (b2 ++ '\n' :: archiveOf L''))))).take
              (b.length + 1) = b ++ ['\n'] := by
          rw [show b ++ '\n' :: '\n' :: '-' :: '-' :: '-' ::
              (' ' :: (t2 ++ ' ' :: ("---\n\n".data ++ (b2 ++ '\n' :: archiveOf L''))))
              = (b ++ ['\n']) ++ ('\n' :: '-' :: '-' :: '-' ::
                (' ' :: (t2 ++ ' ' :: ("---\n\n".data ++ (b2 ++ '\n' :: archiveOf L'')))))
              from by simp]
          rw [show b.length + 1 = (b ++ ['\n']).length from by simp]
          rw [List.take_left]
        have hdk : (b ++ '\n' :: '\n' :: '-' :: '-' :: '-' ::
            (' ' :: (t2 ++ ' ' :: ("---\n\n".data ++ (b2 ++ '\n' :: archiveOf L''))))).drop
              (b.length + 1)
            = archiveOf ((t2, b2) :: L'') := by
          rw [show b ++ '\n' :: '\n' :: '-' :: '-' :: '-' ::
              (' ' :: (t2 ++ ' ' :: ("---\n\n".data ++ (b2 ++ '\n' :: archiveOf L''))))
              = (b ++ ['\n']) ++ ('\n' :: '-' :: '-' :: '-' ::
                (' ' :: (t2 ++ ' ' :: ("---\n\n".data ++ (b2 ++ '\n' :: archiveOf L'')))))
              from by simp]
          rw [show b.length + 1 = (b ++ ['\n']).length from by simp]
          rw [List.drop_left, harc2, chapterBlock_append]
        rw [htk, hdk, pyStrip_append_nl hbs]
        have hrest : (archiveOf ((t2, b2) :: L'')).length ≤ g := by
          rw [harc, List.length_append] at hf
          omega
        rw [ih (fun p hp => hwf p (List.mem_cons_of_mem _ hp)) g hrest]

/-- `_parse_output_file ∘ _build_final_file`-style round trip at the level of
raw archive text. -/
theorem parse_archive {L : List (LC × LC)}
    (h : ∀ tb ∈ L, goodTitleB tb.1 = true ∧ goodBodyB tb.2 = true) :
    parse_output_file (archiveOf L) = L :=
  parseLoop_archive L h (archiveOf L).length (Nat.le_refl _)

theorem goodBody_intro {b : LC} (h1 : pyStrip b = b)
    (h2 : occurs "\n---".data b = false) : goodBodyB b = true := by
  simp [goodBodyB, h1, h2]

theorem goodTitle_intro {t : LC} (h0 : ¬(t = [])) (h1 : pyStrip t = t)
    (h2 : occurs "---".data t = false) : goodTitleB t = true := by
  simp [goodTitleB, h0, h1, h2]

/-- A stripped string inherits absence of a pattern from the original. -/
theorem not_occurs_pyStrip {pat : LC} (hp : pat ≠ []) {x : LC}
    (h : occurs pat x = false) : occurs pat (pyStrip x) = false := by
  cases ho : occurs pat (pyStrip x)
  · rfl
  · rw [occurs_mono hp (pyStrip_subseg x) ho] at h
    cases h

/-- A prefix of a `take` of a string is a prefix of the string. -/
theorem not_occurs_take {pat : LC} (hp : pat ≠ []) {x : LC} {j : Nat}
    (h : ∀ q < j, pat.isPrefixOf (x.drop q) = false) :
    occurs pat (x.take j) = false := by
  rw [occurs_false_iff hp]
  intro q
  by_cases hq : q < j
  · cases hpre : pat.isPrefixOf ((x.take j).drop q)
    · rfl
    · rw [List.drop_take] at hpre
      have hext := prefix_extend (y := (x.drop q).drop (j - q)) hpre
      rw [List.take_append_drop] at hext
      rw [h q hq] at hext
      cases hext
  · rw [show (x.take j).drop q = ((x.take j).drop q).take 0 ++ [] from by
      rw [List.append_nil]
      rw [List.drop_eq_nil_of_le (by
        have := List.length_take_le j x
        omega)]
      rw [List.take_nil]]
    rw [List.append_nil]
    apply isPrefixOf_false_of_long
    simp only [List.length_take, List.length_nil]
    cases pat with
    | nil => exact absurd rfl hp
    | cons a p' => simp

/-- Every body produced by the archive-file regex parser is stripped and free
of the `\n---` lookahead pattern. -/
theorem parseLoop_values_good :
    ∀ (f : Nat) (s : LC) (p : LC × LC), p ∈ parseLoop f s → goodBodyB p.2 = true := by
  intro f
  have hp : ("\n---".data : LC) ≠ [] := by decide
  induction f with
  | zero =>
    intro s p hmem
    rw [show parseLoop 0 s = [] from rfl] at hmem
    cases hmem
  | succ g ih =>
    intro s p hmem
    rw [parseLoop] at hmem
    cases ho : openPos s with
    | none =>
      rw [ho] at hmem
      cases hmem
    | some pk =>
      rw [ho] at hmem
      simp only [] at hmem
      cases hf : findSub "\n---".data (s.drop (pk.1 + 3 + pk.2 + 5)) with
      | none =>
        rw [hf] at hmem
        rcases List.mem_singleton.1 hmem with rfl
        apply goodBody_intro (pyStrip_idem _)
        apply not_occurs_pyStrip hp
        have := (findSub_none_iff hp).1 hf
        exact (occurs_false_iff hp).2 this
      | some j =>
        rw [hf] at hmem
        rcases List.mem_cons.1 hmem with rfl | hmem'
        · apply goodBody_intro (pyStrip_idem _)
          apply not_occurs_pyStrip hp
          apply not_occurs_take hp
          exact fun q hq => ((findSub_some_iff hp).1 hf).2 q hq
        · exact ih _ p hmem'

theorem parse_values_good {s : LC} {p : LC × LC} (h : p ∈ parse_output_file s) :
    goodBodyB p.2 = true :=
  parseLoop_values_good s.length s p h

/-! ### Lemmas on the parsed-chapter dict (`dmem`/`dget`) -/

theorem dmem_iff {m : List (LC × LC)} {k : LC} :
    dmem m k = true ↔ ∃ p ∈ m, p.1 = k := by
  unfold dmem
  rw [List.any_eq_true]
  constructor
  · rintro ⟨p, hp, he⟩
    exact ⟨p, hp, of_decide_eq_true he⟩
  · rintro ⟨p, hp, he⟩
    exact ⟨p, hp, decide_eq_true he⟩

theorem getLast?_mem : ∀ {m : List (LC × LC)} {p : LC × LC},
    m.getLast? = some p → p ∈ m := by
  intro m
  induction m with
  | nil =>
    intro p h
    cases h
  | cons a l ih =>
    intro p h
    cases l with
    | nil =>
      rw [List.getLast?_singleton] at h
      injection h with h2
      rw [← h2]
      exact List.mem_singleton.2 rfl
    | cons b l' =>
      rw [List.getLast?_cons_cons] at h
      exact List.mem_cons_of_mem a (ih h)

theorem dget_values {m : List (LC × LC)} {k : LC} (h : dmem m k = true) :
    ∃ p ∈ m, p.1 = k ∧ p.2 = dget m k := by
  obtain ⟨q, hq, hqk⟩ := dmem_iff.1 h
  have hqf : q ∈ m.filter (fun p => decide (p.1 = k)) :=
    List.mem_filter.2 ⟨hq, decide_eq_true hqk⟩
  unfold dget
  cases hg : (m.filter (fun p => decide (p.1 = k))).getLast? with
  | none =>
    rw [List.getLast?_eq_none_iff] at hg
    rw [hg] at hqf
    cases hqf
  | some r =>
    have hr := getLast?_mem hg
    have := List.mem_filter.1 hr
    exact ⟨r, this.1, of_decide_eq_true this.2, rfl⟩

theorem dget_eq_of_all {m : List (LC × LC)} {k v : LC} (h : dmem m k = true)
    (hall : ∀ p ∈ m, p.1 = k → p.2 = v) : dget m k = v := by
  obtain ⟨p, hp, hpk, hpv⟩ := dget_values h
  rw [← hpv]
  exact hall p hp hpk

theorem dmem_perm {m m' : List (LC × LC)} (h : m.Perm m') (k : LC) :
    dmem m k = dmem m' k := by
  cases hd : dmem m' k
  · cases hd2 : dmem m k
    · rfl
    · obtain ⟨p, hp, hpk⟩ := dmem_iff.1 hd2
      have hco : dmem m' k = true := dmem_iff.2 ⟨p, h.mem_iff.1 hp, hpk⟩
      rw [hco] at hd
      cases hd
  · obtain ⟨p, hp, hpk⟩ := dmem_iff.1 hd
    exact dmem_iff.2 ⟨p, h.mem_iff.2 hp, hpk⟩

/-- With duplicate-free keys, two entries sharing a key coincide. -/
theorem key_unique : ∀ {m : List (LC × LC)}, (m.map Prod.fst).Nodup →
    ∀ {p q : LC × LC}, p ∈ m → q ∈ m → p.1 = q.1 → p = q := by
  intro m
  induction m with
  | nil =>
    intro _ p q hp _ _
    cases hp
  | cons a l ih =>
    intro hnd p q hp hq hk
    rw [List.map_cons, List.nodup_cons] at hnd
    rcases List.mem_cons.1 hp with rfl | hp' <;> rcases List.mem_cons.1 hq with rfl | hq'
    · rfl
    · exact absurd (hk ▸ List.mem_map_of_mem Prod.fst hq') hnd.1
    · exact absurd (hk ▸ List.mem_map_of_mem Prod.fst hp') hnd.1
    · exact ih hnd.2 hp' hq' hk

theorem dget_perm {m m' : List (LC × LC)} (h : m.Perm m')
    (hnd : (m.map Prod.fst).Nodup) {k : LC} (hk : dmem m k = true) :
    dget m' k = dget m k := by
  obtain ⟨p, hp, hpk, hpv⟩ := dget_values hk
  apply dget_eq_of_all (by rw [← dmem_perm h]; exact hk)
  intro q hq hqk
  have hq' : q ∈ m := h.mem_iff.2 hq
  rw [key_unique hnd hq' hp (by rw [hpk, hqk])]
  exact hpv

/-! ### `_build_final_file` as an archive of pairs -/

theorem build_blocks_eq (m : List (LC × LC)) :
    ∀ ts : List LC,
      ((ts.map (fun t => if dmem m t then chapterBlock t (dget m t) else [])).flatten : LC)
        = archiveOf (ts.filterMap
            (fun t => if dmem m t then some (t, dget m t) else none)) := by
  intro ts
  induction ts with
  | nil => rfl
  | cons t ts' ih =>
    rw [List.map_cons, List.flatten_cons, List.filterMap_cons]
    cases hd : dmem m t
    · simp only [Bool.false_eq_true, if_false]
      rw [List.nil_append]
      exact ih
    · simp only [if_true]
      rw [archiveOf, List.map_cons, List.flatten_cons, ih]
      rfl

theorem build_eq_archive (m : List (LC × LC)) (lines : List LC) :
    build_final_file m lines
      = archiveOf ((ordered_titles lines).filterMap
          (fun t => if dmem m t then some (t, dget m t) else none)) := by
  unfold build_final_file
  exact build_blocks_eq m (ordered_titles lines)

theorem mem_completedTitles {es : List Entry} {t : LC}
    (h : t ∈ completedTitles es) : ∃ u, Entry.completed t u ∈ es := by
  unfold completedTitles at h
  obtain ⟨e, he, hfe⟩ := List.mem_filterMap.1 h
  cases e with
  | pending u => cases hfe
  | completed t' u =>
    simp only [Option.some.injEq] at hfe
    exact ⟨u, hfe ▸ he⟩
  | dead r => cases hfe

/-- The chapter pairs emitted by `_build_final_file` on a well-formed ledger
from a parsed dict are all well-formed for re-parsing. -/
theorem build_pairs_good {es : List Entry} (h : LedgerWF es = true) {s : LC}
    {tb : LC × LC}
    (hmem : tb ∈ (ordered_titles (renderLines es)).filterMap
      (fun t => if dmem (parse_output_file s) t
        then some (t, dget (parse_output_file s) t) else none)) :
    goodTitleB tb.1 = true ∧ goodBodyB tb.2 = true := by
  obtain ⟨t, ht, hft⟩ := List.mem_filterMap.1 hmem
  rw [ordered_titles_render h] at ht
  cases hd : dmem (parse_output_file s) t
  · rw [hd] at hft
    cases hft
  · rw [hd] at hft
    simp only [if_true, Option.some.injEq] at hft
    obtain ⟨u, hu⟩ := mem_completedTitles ht
    have hwf := wf_completed (List.all_eq_true.1 h _ hu)
    obtain ⟨htne, hts, -, htocc, -⟩ := hwf
    obtain ⟨p, hp, -, hpv⟩ := dget_values hd
    constructor
    · rw [← hft]
      exact goodTitle_intro htne hts htocc
    · rw [← hft]
      show goodBodyB (dget (parse_output_file s) t) = true
      rw [← hpv]
      exact parse_values_good hp

/-- Flattening the per-title blocks over the completed titles equals the
per-entry flattening over the whole ledger: pending and dead positions
contribute the empty string. -/
theorem flatten_completed (m : List (LC × LC)) :
    ∀ es : List Entry,
      (((completedTitles es).map
        (fun t => if dmem m t then chapterBlock t (dget m t) else [])).flatten : LC)
      = (es.map (fun e => match e with
          | Entry.completed t _ => if dmem m t then chapterBlock t (dget m t) else []
          | _ => ([] : LC))).flatten := by
  intro es
  induction es with
  | nil => rfl
  | cons e es' ih =>
    cases e with
    | pending u =>
      rw [show completedTitles (Entry.pending u :: es') = completedTitles es' from rfl]
      rw [List.map_cons, List.flatten_cons, ih, List.nil_append]
    | completed t u =>
      rw [show completedTitles (Entry.completed t u :: es')
          = t :: completedTitles es' from rfl]
      rw [List.map_cons, List.flatten_cons, List.map_cons, List.flatten_cons, ih]
    | dead r =>
      rw [show completedTitles (Entry.dead r :: es') = completedTitles es' from rfl]
      rw [List.map_cons, List.flatten_cons, ih, List.nil_append]

theorem dmem_restrict_true {m : List (LC × LC)} {ts : List LC} {t : LC}
    (ht : t ∈ ts) (hm : dmem m t = true) :
    dmem (ts.filterMap
      (fun a => if dmem m a then some (a, dget m a) else none)) t = true := by
  apply dmem_iff.2
  refine ⟨(t, dget m t), List.mem_filterMap.2 ⟨t, ht, ?_⟩, rfl⟩
  rw [hm]
  rfl

theorem dmem_restrict_false {m : List (LC × LC)} {ts : List LC} {t : LC}
    (hm : dmem m t = false) :
    dmem (ts.filterMap
      (fun a => if dmem m a then some (a, dget m a) else none)) t = false := by
  cases hd : dmem (ts.filterMap
      (fun a => if dmem m a then some (a, dget m a) else none)) t
  · rfl
  · obtain ⟨p, hp, hpk⟩ := dmem_iff.1 hd
    obtain ⟨a, -, hfa⟩ := List.mem_filterMap.1 hp
    cases hda : dmem m a
    · rw [hda] at hfa
      cases hfa
    · rw [hda] at hfa
      simp only [if_true, Option.some.injEq] at hfa
      rw [← hfa] at hpk
      rw [← hpk, hda] at hm
      cases hm

theorem dget_restrict {m : List (LC × LC)} {ts : List LC} {t : LC}
    (ht : t ∈ ts) (hm : dmem m t = true) :
    dget (ts.filterMap
      (fun a => if dmem m a then some (a, dget m a) else none)) t = dget m t := by
  apply dget_eq_of_all (dmem_restrict_true ht hm)
  intro p hp hpk
  obtain ⟨a, -, hfa⟩ := List.mem_filterMap.1 hp
  cases hda : dmem m a
  · rw [hda] at hfa
    cases hfa
  · rw [hda] at hfa
    simp only [if_true, Option.some.injEq] at hfa
    rw [← hfa] at hpk ⊢
    rw [← hpk]

/-! ## Claim theorems -/

/-- C5 (amended): on a ledger whose dead entries wrap bare whitespace-free
URLs, the revival pass rewrites, in place, exactly the dead lines whose URL is
in the freshly fetched live set back to bare pending URLs, and every other
ledger line is written back unchanged (so positions, count, and order are
preserved).  The restriction to bare-URL dead entries is essential: a
dead-marked *completed* line — which the reconciler's own earmark pass
produces — is never restored even when its URL is live, because the
marker-stripped remainder (`✔ title url`) is compared as a whole against the
live URL list (see the counterexample below). -/
theorem C5_revival_in_place (es : List Entry) (live : List LC)
    (h : LedgerWF es = true) :
    restore_revived (renderLines es) live
      = renderLines (es.map (fun e =>
          match e with
          | .dead r => if r ∈ live then .pending r else .dead r
          | e => e)) := by
  conv_lhs => unfold restore_revived
  conv_lhs => rw [show renderLines es = es.map (fun e => renderEntry e ++ ['\n']) from rfl]
  conv_rhs => unfold renderLines
  rw [List.map_map, List.map_map]
  apply List.map_congr_left
  intro e he
  have hwf : EntryWF e = true := List.all_eq_true.1 h e he
  simp only [Function.comp]
  cases e with
  | pending u =>
    obtain ⟨hu, hnw⟩ := wf_pending hwf
    show (if (revived_links (renderLines es) live).contains (stripDead (u ++ ['\n'])) = true
        then stripDead (u ++ ['\n']) ++ ['\n'] else u ++ ['\n']) = u ++ ['\n']
    rw [stripDead_pending hnw]
    by_cases hc : (revived_links (renderLines es) live).contains u = true
    · rw [if_pos hc]
    · rw [if_neg hc]
  | completed t u =>
    have hns : (revived_links (renderLines es) live).contains
        (stripDead (renderEntry (.completed t u) ++ ['\n'])) ≠ true := by
      intro hc
      have hmem := List.elem_iff.1 hc
      have hweird := allNonWs_mem (revived_nonws h hmem) (stripDead_completed_ws hwf)
      simp at hweird
    show (if (revived_links (renderLines es) live).contains
          (stripDead (renderEntry (.completed t u) ++ ['\n'])) = true
        then _ else _) = renderEntry (.completed t u) ++ ['\n']
    rw [if_neg hns]
  | dead r =>
    obtain ⟨hr, hnw⟩ := wf_dead hwf
    have hsd := stripDead_dead hwf
    show (if (revived_links (renderLines es) live).contains
          (stripDead (renderEntry (.dead r) ++ ['\n'])) = true
        then stripDead (renderEntry (.dead r) ++ ['\n']) ++ ['\n'] else _)
        = renderEntry (if r ∈ live then Entry.pending r else Entry.dead r) ++ ['\n']
    rw [hsd]
    have hdm : r ∈ dead_links (renderLines es) := by
      rw [dead_links_render h]
      exact List.mem_filterMap.2 ⟨.dead r, he, rfl⟩
    by_cases hl : r ∈ live
    · have hc : (revived_links (renderLines es) live).contains r = true := by
        apply List.elem_iff.2
        unfold revived_links
        exact List.mem_filter.2 ⟨hdm, List.elem_iff.2 hl⟩
      rw [if_pos hc, if_pos hl]
      rfl
    · have hc : (revived_links (renderLines es) live).contains r ≠ true := by
        intro hc
        have := List.mem_filter.1 (List.elem_iff.1 hc)
        exact hl (List.elem_iff.1 this.2)
      rw [if_neg hc, if_neg hl]

/-- Witness for C5: a three-line ledger with one dead entry whose URL is live
again; it is restored in place and the other lines are byte-identical. -/
theorem C5_revival_in_place_witness :
    restore_revived
      ["[DEAD LINK] https://u1\n".data, "https://u2\n".data, "✔ T https://u3\n".data]
      ["https://u1".data]
      = ["https://u1\n".data, "https://u2\n".data, "✔ T https://u3\n".data] := by
  have h := C5_revival_in_place
    [.dead "https://u1".data, .pending "https://u2".data,
      .completed "T".data "https://u3".data]
    ["https://u1".data] (by decide)
  exact h.trans (by decide)

/-- C5 counterexample: the earmark pass dead-marks a *completed* ledger line
(`✔ T https://u2`) when its URL is removed, yielding
`[DEAD LINK] ✔ T https://u2`.  When the URL `https://u2` later reappears in
the live set, `check_for_revived_links` computes the candidate
`line.strip().replace("[DEAD LINK] ", "")` = `✔ T https://u2`, compares that
whole string against the live URL list, finds no match, and restores nothing:
the dead entry's URL is present in the live set yet the entry stays dead,
refuting the claim that exactly the dead entries with live URLs are
restored. -/
theorem C5_dead_completed_counterexample :
    earmark_dead ["https://u2".data] ["✔ T https://u2\n".data]
      = ["[DEAD LINK] ✔ T https://u2\n".data]
    ∧ occurs "https://u2".data "[DEAD LINK] ✔ T https://u2\n".data = true
    ∧ dead_links ["[DEAD LINK] ✔ T https://u2\n".data] = ["✔ T https://u2".data]
    ∧ revived_links ["[DEAD LINK] ✔ T https://u2\n".data] ["https://u2".data] = []
    ∧ restore_revived ["[DEAD LINK] ✔ T https://u2\n".data] ["https://u2".data]
      = ["[DEAD LINK] ✔ T https://u2\n".data] := by decide

/-- C6 counterexample: the dead-marking pass tests substring containment
(`removed in line`), so a ledger line whose URL is *not* in the removed set
but merely contains a removed URL as a prefix is rewritten with the dead
marker, contradicting the claim that exactly the lines whose URL is in the
removed set are rewritten. -/
theorem C6_substring_counterexample :
    earmark_dead ["https://x.com/c/1".data] ["https://x.com/c/12\n".data]
      = ["[DEAD LINK] https://x.com/c/12\n".data]
    ∧ "https://x.com/c/12".data ∉ ["https://x.com/c/1".data] := by decide

/-- C6 (amended): the dead-marking pass maps each ledger line in place — the
line count and positions are preserved, nothing is deleted, inserted or
reordered; a line is rewritten to `"[DEAD LINK] " + line.strip() + "\n"`
exactly when it contains some removed URL as a substring and is not already
dead-marked, and every other line is written back unchanged. -/
theorem C6_earmark_in_place (es : List Entry) (removed : List LC)
    (h : LedgerWF es = true) :
    earmark_dead removed (renderLines es)
      = renderLines (es.map (fun e =>
          if removed.any (fun r => occurs r (renderEntry e ++ ['\n'])) && !(isDeadE e)
          then .dead (renderEntry e) else e))
    ∧ (earmark_dead removed (renderLines es)).length = (renderLines es).length := by
  constructor
  · conv_lhs => unfold earmark_dead
    conv_lhs => rw [show renderLines es = es.map (fun e => renderEntry e ++ ['\n']) from rfl]
    conv_rhs => unfold renderLines
    rw [List.map_map, List.map_map]
    apply List.map_congr_left
    intro e he
    have hwf : EntryWF e = true := List.all_eq_true.1 h e he
    simp only [Function.comp]
    rw [dead_tag_test hwf]
    by_cases hc : removed.any (fun r => occurs r (renderEntry e ++ ['\n'])) = true
    · cases hd : isDeadE e
      · rw [if_pos (by rw [hc]; decide), if_pos (by rw [hc]; decide)]
        rw [pyStrip_append_nl (pyStrip_render hwf)]
        rfl
      · rw [if_neg (by rw [hc]; decide), if_neg (by rw [hc]; decide)]
    · have hcf : removed.any (fun r => occurs r (renderEntry e ++ ['\n'])) = false := by
        cases hcc : removed.any (fun r => occurs r (renderEntry e ++ ['\n']))
        · rfl
        · exact absurd hcc hc
      rw [if_neg (by rw [hcf]; simp), if_neg (by rw [hcf]; simp)]
  · unfold earmark_dead
    simp

/-- Witness for C6 (amended): a removed URL marks its pending line in place
and leaves the completed line and the already-dead line untouched. -/
theorem C6_earmark_in_place_witness :
    earmark_dead ["https://u2".data]
      ["https://u2\n".data, "✔ T https://u3\n".data, "[DEAD LINK] https://u4\n".data]
      = ["[DEAD LINK] https://u2\n".data, "✔ T https://u3\n".data,
        "[DEAD LINK] https://u4\n".data] := by
  have h := (C6_earmark_in_place
    [.pending "https://u2".data, .completed "T".data "https://u3".data,
      .dead "https://u4".data]
    ["https://u2".data] (by decide)).1
  exact h.trans (by decide)

/-- C3: for every pending entry the fetch engine makes at most 3 attempts,
attempt `n` (1-based) with timeout `n * 20000` ms — 20s/40s/60s — and the
waits between consecutive attempts are 2s then 4s; an entry failing twice and
succeeding on the third attempt is rewritten as completed in the ledger with
the chapter appended and no failure record, while an entry failing all three
attempts joins the session failure list with the ledger and archive untouched,
and the fold continues with the remaining URLs instead of aborting. -/
theorem C3_retry_policy
    (fetch : LC → Nat → FetchRes) (st : ScrapeState) (i : Nat) (u : LC)
    (rest : List (Nat × LC)) (t c : LC)
    (h0 : isSuccessB (fetch u 0) = false)
    (h1 : isSuccessB (fetch u 1) = false) :
    (∀ g : Nat → FetchRes,
      (retryURL g).1.length ≤ 3 ∧
      (retryURL g).1 = [20000, 40000, 60000].take (retryURL g).1.length ∧
      (retryURL g).2.1.take ((retryURL g).1.length - 1)
        = [2, 4].take ((retryURL g).1.length - 1))
    ∧ ((fetch u 2).title = some t → (fetch u 2).content = some c → t ≠ [] →
        processURL fetch st (i, u) =
          { lines := st.lines.set i ("✔ ".data ++ t ++ ' ' :: u ++ ['\n'])
            output := st.output ++ chapterBlock t c
            failed := st.failed })
    ∧ (isSuccessB (fetch u 2) = false →
        processURL fetch st (i, u) = { st with failed := st.failed ++ [u] } ∧
        run_scrape fetch st ((i, u) :: rest)
          = run_scrape fetch { st with failed := st.failed ++ [u] } rest) := by
  refine ⟨fun g => ?_, fun ht hc htne => ?_, fun h2 => ?_⟩
  · by_cases s0 : isSuccessB (g 0)
    · simp [retryURL, retryGo, s0]
    · by_cases s1 : isSuccessB (g 1)
      · simp [retryURL, retryGo, s0, s1]
      · by_cases s2 : isSuccessB (g 2) <;>
          simp [retryURL, retryGo, s0, s1, s2]
  · have hs : isSuccessB (fetch u 2) = true := by
      simp [isSuccessB, ht, hc, htne]
    simp [processURL, retryURL, retryGo, h0, h1, hs, ht, hc]
  · constructor
    · simp [processURL, retryURL, retryGo, h0, h1, h2]
    · simp [run_scrape, processURL, retryURL, retryGo, h0, h1, h2]

/-- Witness for C3 at a concrete oracle failing twice and succeeding on the
third attempt. -/
theorem C3_retry_policy_witness :
    processURL
      (fun u n => if n < 2 then royalroadError u
        else { title := some "T".data, content := some "B".data, notes := none })
      { lines := ["https://u\n".data], output := [], failed := [] } (0, "https://u".data)
      = { lines := ["✔ T https://u\n".data]
          output := chapterBlock "T".data "B".data
          failed := [] } := by
  have h := (C3_retry_policy
    (fun u n => if n < 2 then royalroadError u
      else { title := some "T".data, content := some "B".data, notes := none })
    { lines := ["https://u\n".data], output := [], failed := [] } 0 "https://u".data
    [] "T".data "B".data (by decide) (by decide)).2.1 (by decide) (by decide) (by decide)
  simpa using h

/-- C10: a fetch attempt counts as successful exactly when the returned title
is a non-empty string and the returned body is not `None`; the Royal Road
sentinel (an error title with a `None` body) therefore fails and is retried
through all three attempts, while a chapter whose body scrapes to the empty
string succeeds and is recorded completed with an empty body appended. -/
theorem C10_success_criterion :
    (∀ r : FetchRes, isSuccessB r = true ↔
      ((∃ t, r.title = some t ∧ t ≠ []) ∧ r.content ≠ none))
    ∧ (∀ u : LC, isSuccessB (royalroadError u) = false ∧
        (retryURL (fun _ => royalroadError u)).2.2 = none ∧
        (retryURL (fun _ => royalroadError u)).1.length = 3)
    ∧ (∀ (fetch : LC → Nat → FetchRes) (st : ScrapeState) (i : Nat) (u t : LC),
        fetch u 0 = { title := some t, content := some [], notes := none } →
        t ≠ [] →
        processURL fetch st (i, u) =
          { lines := st.lines.set i ("✔ ".data ++ t ++ ' ' :: u ++ ['\n'])
            output := st.output ++ chapterBlock t []
            failed := st.failed }) := by
  refine ⟨fun r => ?_, fun u => ?_, fun fetch st i u t h0 htne => ?_⟩
  · cases r with
    | mk title content notes =>
      cases title with
      | none => simp [isSuccessB]
      | some t =>
        cases content <;> simp [isSuccessB, Option.isSome]
  · refine ⟨by simp [isSuccessB, royalroadError], ?_, ?_⟩ <;>
      simp [retryURL, retryGo, isSuccessB, royalroadError]
  · simp [processURL, retryURL, retryGo, h0, isSuccessB, htne]

/-- Witness for C10: an empty-body chapter is recorded as completed with an
empty body appended to the archive. -/
theorem C10_success_criterion_witness :
    processURL
      (fun _ _ => { title := some "T".data, content := some [], notes := none })
      { lines := ["https://u\n".data], output := [], failed := [] } (0, "https://u".data)
      = { lines := ["✔ T https://u\n".data]
          output := chapterBlock "T".data []
          failed := [] } := by
  have h := C10_success_criterion.2.2
    (fun _ _ => { title := some "T".data, content := some [], notes := none })
    { lines := ["https://u\n".data], output := [], failed := [] } 0 "https://u".data
    "T".data rfl (by decide)
  simpa using h

/-- In a duplicate-free list the positions of the elements are strictly
increasing. -/
theorem pairwise_pyIndex_lt {l : List LC} (h : l.Nodup) :
    l.Pairwise (fun a b => pyIndex l a < pyIndex l b) := by
  induction l with
  | nil => simp
  | cons x xs ih =>
    rcases List.nodup_cons.1 h with ⟨hx, hxs⟩
    refine List.pairwise_cons.2 ⟨?_, ?_⟩
    · intro b hb
      have hbx : x ≠ b := fun e => hx (e ▸ hb)
      simp [pyIndex, hbx]
    · refine (ih hxs).imp_of_mem ?_
      intro a b ha hb hab
      have hax : x ≠ a := fun e => hx (e ▸ ha)
      have hbx : x ≠ b := fun e => hx (e ▸ hb)
      simp [pyIndex, hax, hbx]
      omega

/-- First-occurrence positions identify members. -/
theorem pyIndex_inj {l : List LC} {a b : LC} (ha : a ∈ l) (hb : b ∈ l)
    (h : pyIndex l a = pyIndex l b) : a = b := by
  induction l with
  | nil => cases ha
  | cons x xs ih =>
    by_cases hxa : x = a
    · by_cases hxb : x = b
      · exact hxa.symm.trans hxb
      · exfalso
        simp only [pyIndex, if_pos hxa, if_neg hxb] at h
        omega
    · by_cases hxb : x = b
      · exfalso
        simp only [pyIndex, if_pos hxb, if_neg hxa] at h
        omega
      · simp only [pyIndex, if_neg hxa, if_neg hxb] at h
        have ha2 : a ∈ xs := by
          rcases List.mem_cons.1 ha with rfl | h2
          · exact absurd rfl hxa
          · exact h2
        have hb2 : b ∈ xs := by
          rcases List.mem_cons.1 hb with rfl | h2
          · exact absurd rfl hxb
          · exact h2
        exact ih ha2 hb2 (by omega)

/-- C2: the reconciler reports as new exactly the live-set links absent from
the known set, in live-set relative order (the `sorted(..., key=
current_urls.index)` tie-break reproduces adapter order, not alphabetical
order; the same holds for the older set-difference variant in `grab_links`
for any enumeration of the set difference), and reports as removed exactly
the known links absent from the live set; on live `[u1,u2,u3]` against known
`[u1,u2]` the result is `new = [u3]`, `removed = ∅`. -/
theorem C2_reconciler_diff (current existing diff : List LC)
    (hc : current.Nodup) (hd : diff.Nodup)
    (hdm : ∀ u, u ∈ diff ↔ u ∈ current ∧ u ∉ existing) :
    new_urls current existing = current.filter (fun u => !(existing.contains u))
    ∧ new_urls_gl current diff = current.filter (fun u => !(existing.contains u))
    ∧ (∀ u, u ∈ removed_urls current existing ↔ u ∈ existing ∧ u ∉ current)
    ∧ new_urls ["https://u1".data, "https://u2".data, "https://u3".data]
        ["https://u1".data, "https://u2".data] = ["https://u3".data]
    ∧ removed_urls ["https://u1".data, "https://u2".data, "https://u3".data]
        ["https://u1".data, "https://u2".data] = ∅ := by
  have hfs : (current.filter (fun u => !(existing.contains u))).Pairwise
      (fun a b => pyIndex current a < pyIndex current b) :=
    List.Pairwise.sublist (List.filter_sublist current) (pairwise_pyIndex_lt hc)
  refine ⟨sortByKey_eq_self hfs, ?_, ?_, by decide, by decide⟩
  · have hsub : ∀ u ∈ diff, u ∈ current := fun u hu => ((hdm u).1 hu).1
    have hnd : (sortByKey (pyIndex current) diff).Nodup :=
      ((sortByKey_perm _ diff).nodup_iff).2 hd
    have hle : (sortByKey (pyIndex current) diff).Pairwise
        (fun a b => pyIndex current a ≤ pyIndex current b) :=
      sortByKey_pairwise _ diff
    have hlt : (sortByKey (pyIndex current) diff).Pairwise
        (fun a b => pyIndex current a < pyIndex current b) := by
      refine (hle.and hnd).imp_of_mem ?_
      intro a b ha hb hab
      have hac : a ∈ current := hsub a (mem_sortByKey.1 ha)
      have hbc : b ∈ current := hsub b (mem_sortByKey.1 hb)
      rcases hab with ⟨hle2, hne⟩
      rcases lt_or_eq_of_le hle2 with h | h
      · exact h
      · exact absurd (pyIndex_inj hac hbc h) hne
    refine eq_of_strict_sorted hlt hfs ?_
    intro a
    rw [show new_urls_gl current diff = sortByKey (pyIndex current) diff from rfl] at *
    rw [mem_sortByKey, hdm a, List.mem_filter]
    simp [List.elem_iff]
  · intro u
    simp [removed_urls, List.mem_toFinset]

/-- Witness for C2: the scenario live `[u1,u2,u3]`, known `[u1,u2]` for the
`grab_links` set-difference variant with diff enumeration `[u3]`. -/
theorem C2_reconciler_diff_witness :
    new_urls_gl ["https://u1".data, "https://u2".data, "https://u3".data]
      ["https://u3".data]
      = ["https://u3".data] := by
  have h := (C2_reconciler_diff
    ["https://u1".data, "https://u2".data, "https://u3".data]
    ["https://u1".data, "https://u2".data] ["https://u3".data]
    (by decide) (by decide) ?_).2.1
  · rw [h]
    decide
  · intro u
    constructor
    · intro hu
      rcases List.mem_singleton.1 hu with rfl
      refine ⟨by simp, ?_⟩
      intro hmem
      rcases List.mem_cons.1 hmem with h1 | h2
      · exact absurd h1 (by decide)
      · rcases List.mem_singleton.1 h2 with h3
        exact absurd h3 (by decide)
    · rintro ⟨h1, h2⟩
      rcases List.mem_cons.1 h1 with rfl | h3
      · exact absurd (by simp) h2
      rcases List.mem_cons.1 h3 with rfl | h4
      · exact absurd (by simp) h2
      exact h4

/-- Membership in the merge's new-files selection. -/
theorem mem_new_link_files {names processed : List LC} {f : LC} :
    f ∈ new_link_files names processed ↔
      f ∈ names ∧ ".txt".data.isSuffixOf f = true ∧ (chunkKey f).isSome = true ∧
        f ∉ processed := by
  unfold new_link_files link_file_names
  rw [mem_sortByKey, List.mem_filter, List.mem_filter]
  simp [List.elem_iff, Bool.and_eq_true, and_assoc]

/-- If every matching chunk file is already tracked, the merge finds nothing
new. -/
theorem new_link_files_eq_nil {names processed : List LC}
    (h : ∀ f ∈ link_file_names names, f ∈ processed) :
    new_link_files names processed = [] := by
  unfold new_link_files
  have hf : (link_file_names names).filter (fun f => !(processed.contains f)) = [] := by
    rw [List.filter_eq_nil_iff]
    intro a ha
    simp [List.elem_iff, h a ha]
  rw [hf]
  rfl

/-- Conversely, an empty new-files selection means every matching chunk file
is tracked. -/
theorem mem_processed_of_new_nil {names processed : List LC} {f : LC}
    (h : new_link_files names processed = []) (hf : f ∈ link_file_names names) :
    f ∈ processed := by
  by_contra hc
  have hm : f ∈ new_link_files names processed := by
    unfold new_link_files
    rw [mem_sortByKey, List.mem_filter]
    exact ⟨hf, by simp [List.elem_iff, hc]⟩
  rw [h] at hm
  simp at hm

/-- C8: the merge-chunks operation is idempotent — after one invocation the
second finds no new chunk files and leaves both the master chapter list and
the processed-filenames tracker exactly as they were, so no chunk file's URLs
are ever appended twice. -/
theorem C8_merge_idempotent (dir : List (LC × LC)) (st : MergeState) :
    new_link_files (dir.map (fun p => p.1)) (assemble_chapter_list dir st).processed = []
    ∧ assemble_chapter_list dir (assemble_chapter_list dir st)
        = assemble_chapter_list dir st := by
  have hnil :
      new_link_files (dir.map (fun p => p.1)) (assemble_chapter_list dir st).processed
        = [] := by
    apply new_link_files_eq_nil
    intro f hf
    unfold assemble_chapter_list
    by_cases h : new_link_files (dir.map (fun p => p.1)) st.processed = []
    · simp only [h, if_pos rfl]
      exact mem_processed_of_new_nil h hf
    · simp only [if_neg h, List.mem_append]
      by_cases hp : f ∈ st.processed
      · exact Or.inl hp
      · refine Or.inr ?_
        unfold new_link_files
        rw [mem_sortByKey, List.mem_filter]
        exact ⟨hf, by simp [List.elem_iff, hp]⟩
  have hself : ∀ st' : MergeState,
      new_link_files (dir.map (fun p => p.1)) st'.processed = [] →
      assemble_chapter_list dir st' = st' := by
    intro st' h
    unfold assemble_chapter_list
    simp [h]
  exact ⟨hnil, hself _ hnil⟩

/-- C9 counterexample: a `.txt` chunk file whose name does not match the
numeric `\d+-\d+.txt` pattern is excluded from the merge selection entirely
(never appended to the ledger), not merged with a lexicographic fallback as
the claim states. -/
theorem C9_fallback_counterexample :
    ".txt".data.isSuffixOf "chunk.txt".data = true
    ∧ new_link_files ["chunk.txt".data] [] = []
    ∧ assemble_chapter_list [("chunk.txt".data, "https://u1\n".data)]
        { chapterList := [], processed := [] }
        = { chapterList := [], processed := [] } := by decide

/-- C9 (amended): newly appeared chunk files are merged in ascending order of
the numeric start-position embedded in the filename (not lexicographic name
order — witnessed by `x 9-16.txt` sorting before `x 80-100.txt`), and the
selection contains exactly the untracked `.txt` files matching the numeric
pattern; a `.txt` file not matching the pattern is excluded from the merge. -/
theorem C9_numeric_merge_order (names processed : List LC) :
    (new_link_files names processed).Pairwise
      (fun a b => (chunkKey a).getD 0 ≤ (chunkKey b).getD 0)
    ∧ (∀ f, f ∈ new_link_files names processed ↔
        f ∈ names ∧ ".txt".data.isSuffixOf f = true ∧ (chunkKey f).isSome = true ∧
          f ∉ processed)
    ∧ new_link_files ["x 80-100.txt".data, "x 9-16.txt".data] []
        = ["x 9-16.txt".data, "x 80-100.txt".data] :=
  ⟨sortByKey_pairwise _ _, fun _ => mem_new_link_files, by decide⟩

/-- C4: evaluation of the pending selection on a ledger holding a completed, a
dead, and a pending line.  The completed line is skipped, but the
`[DEAD LINK]`-prefixed line does not match the checkmark pattern of
`_parse_input_file`, is classified as pending, and so is scheduled for a fetch
(with the marker text inside the URL slot) — the fetch engine does not skip
dead entries, contradicting the claim (and the explicit dead-line filter the
main-script variant applies at `Web-Novel-Scraper-Suite.py:424`). -/
theorem C4_dead_entries_scheduled :
    urls_to_scrape
      ["✔ Chapter 1 https://u1\n".data,
       "[DEAD LINK] https://u2\n".data,
       "https://u3\n".data]
    = [(1, "[DEAD LINK] https://u2".data), (2, "https://u3".data)] := by decide

/-- C7: the Archive Builder is a fixed point on its own output.  For any prior
archive text `s` and any well-formed ledger, building from the dict parsed out
of `s`, re-parsing the file just produced, and rebuilding from the same ledger
yields a byte-for-byte identical file. -/
theorem C7_builder_fixed_point (s : LC) (es : List Entry)
    (h : LedgerWF es = true) :
    build_final_file
      (parse_output_file
        (build_final_file (parse_output_file s) (renderLines es)))
      (renderLines es)
      = build_final_file (parse_output_file s) (renderLines es) := by
  rw [build_eq_archive (parse_output_file s) (renderLines es)]
  rw [parse_archive (fun tb hmem => build_pairs_good h hmem)]
  rw [build_eq_archive]
  refine congrArg archiveOf ?_
  apply List.filterMap_congr
  intro t ht
  cases hm : dmem (parse_output_file s) t
  · rw [dmem_restrict_false hm]
    rfl
  · rw [dmem_restrict_true ht hm, dget_restrict ht hm]

/-- C7 witness: a concrete prior archive and one-completed-entry ledger. -/
theorem C7_builder_fixed_point_witness :
    LedgerWF [Entry.completed "T0".data "https://a.example/1".data] = true
    ∧ build_final_file
        (parse_output_file
          (build_final_file (parse_output_file "\n--- T0 ---\n\nOld body\n".data)
            (renderLines [Entry.completed "T0".data "https://a.example/1".data])))
        (renderLines [Entry.completed "T0".data "https://a.example/1".data])
        = build_final_file (parse_output_file "\n--- T0 ---\n\nOld body\n".data)
            (renderLines [Entry.completed "T0".data "https://a.example/1".data]) :=
  ⟨by decide, C7_builder_fixed_point _ _ (by decide)⟩

/-- C1: on a well-formed ledger mixing completed, pending and dead entries,
the Archive Builder's output over the map parsed from an archive of
well-formed chapter pairs is exactly one delimited block per completed ledger
title present in the map, in ledger order, with pending and dead positions
contributing nothing; and the output is unchanged when the earlier archive had
been written in any other append order (any permutation of its chapter
blocks, with distinct titles). -/
theorem C1_archive_builder (es : List Entry) (L L2 : List (LC × LC))
    (h : LedgerWF es = true)
    (hL : ∀ tb ∈ L, goodTitleB tb.1 = true ∧ goodBodyB tb.2 = true)
    (hperm : L2.Perm L) (hnd : (L.map Prod.fst).Nodup) :
    build_final_file (parse_output_file (archiveOf L)) (renderLines es)
      = (es.map (fun e => match e with
          | Entry.completed t _ =>
              if dmem (parse_output_file (archiveOf L)) t
              then chapterBlock t (dget (parse_output_file (archiveOf L)) t)
              else []
          | _ => ([] : LC))).flatten
    ∧ build_final_file (parse_output_file (archiveOf L2)) (renderLines es)
      = build_final_file (parse_output_file (archiveOf L)) (renderLines es) := by
  have hL2 : ∀ tb ∈ L2, goodTitleB tb.1 = true ∧ goodBodyB tb.2 = true :=
    fun tb htb => hL tb (hperm.mem_iff.1 htb)
  constructor
  · rw [parse_archive hL]
    unfold build_final_file
    rw [ordered_titles_render h]
    exact flatten_completed L es
  · rw [parse_archive hL, parse_archive hL2]
    unfold build_final_file
    refine congrArg List.flatten ?_
    apply List.map_congr_left
    intro t ht
    rw [dmem_perm hperm t]
    cases hm : dmem L t
    · rfl
    · rw [dget_perm hperm.symm hnd hm]

/-- C1 witness: a three-entry ledger (completed / pending / dead) against a
two-chapter archive written in both append orders. -/
theorem C1_archive_builder_witness :
    (LedgerWF [Entry.completed "A".data "https://a.example/1".data,
        Entry.pending "https://p.example/2".data,
        Entry.dead "https://d.example/3".data] = true
      ∧ (∀ tb ∈ [(("A".data : LC), ("body a".data : LC)),
            (("B".data : LC), ("body b".data : LC))],
          goodTitleB tb.1 = true ∧ goodBodyB tb.2 = true)
      ∧ ([(("B".data : LC), ("body b".data : LC)),
            (("A".data : LC), ("body a".data : LC))]).Perm
          [(("A".data : LC), ("body a".data : LC)),
            (("B".data : LC), ("body b".data : LC))]
      ∧ (([(("A".data : LC), ("body a".data : LC)),
            (("B".data : LC), ("body b".data : LC))]).map Prod.fst).Nodup)
    ∧ (build_final_file
        (parse_output_file (archiveOf [("A".data, "body a".data),
          ("B".data, "body b".data)]))
        (renderLines [Entry.completed "A".data "https://a.example/1".data,
          Entry.pending "https://p.example/2".data,
          Entry.dead "https://d.example/3".data])
        = ([Entry.completed "A".data "https://a.example/1".data,
            Entry.pending "https://p.example/2".data,
            Entry.dead "https://d.example/3".data].map (fun e => match e with
            | Entry.completed t _ =>
                if dmem (parse_output_file (archiveOf [("A".data, "body a".data),
                  ("B".data, "body b".data)])) t
                then chapterBlock t
                  (dget (parse_output_file (archiveOf [("A".data, "body a".data),
                    ("B".data, "body b".data)])) t)
                else []
            | _ => ([] : LC))).flatten
      ∧ build_final_file
          (parse_output_file (archiveOf [("B".data, "body b".data),
            ("A".data, "body a".data)]))
          (renderLines [Entry.completed "A".data "https://a.example/1".data,
            Entry.pending "https://p.example/2".data,
            Entry.dead "https://d.example/3".data])
        = build_final_file
            (parse_output_file (archiveOf [("A".data, "body a".data),
              ("B".data, "body b".data)]))
            (renderLines [Entry.completed "A".data "https://a.example/1".data,
              Entry.pending "https://p.example/2".data,
              Entry.dead "https://d.example/3".data])) :=
  ⟨⟨by decide, by decide, by decide, by decide⟩,
    C1_archive_builder _ _ _ (by decide) (by decide) (by decide) (by decide)⟩

end Scraper
